import Mathlib

/-!
Verification of the Wigner small-d rotation-matrix engine described in the
repository's design spec, against the observed test surface
(`src/math/tests/tst_dmatrix.py`).  The engine itself (module
`scitbx.math.dmatrix`) is not present under `src/`, only its tests are, so the
table builder and query interface are modelled from the spec: the
Jacobi-polynomial / binomial-sum closed form in `cos (β/2)` and `sin (β/2)`,
explicit singular-angle substitution, and a bounds-checked accessor with the
two error signals `InvalidDomain` and `IndexOutOfRange`.
-/

namespace Scitbx

/-- Reciprocal factorial on `ℤ`, extended by `0` on negative arguments
(the `1/Γ` convention).  This makes every term of the binomial-sum
representation vanish automatically outside its true summation range. -/
noncomputable def rfac (k : ℤ) : ℝ :=
  if 0 ≤ k then ((Nat.factorial k.toNat : ℕ) : ℝ)⁻¹ else 0

/-- The sign `(-1)^t` for an integer `t`, as a real number. -/
def wsign (t : ℤ) : ℝ := if Even t then 1 else -1

lemma rfac_of_neg {k : ℤ} (h : k < 0) : rfac k = 0 := by
  simp [rfac, not_le.mpr h]

lemma rfac_of_nonneg {k : ℤ} (h : 0 ≤ k) : rfac k = ((Nat.factorial k.toNat : ℕ) : ℝ)⁻¹ := by
  simp [rfac, h]

lemma rfac_nonneg (k : ℤ) : 0 ≤ rfac k := by
  unfold rfac
  split
  · positivity
  · exact le_rfl

lemma rfac_pos {k : ℤ} (h : 0 ≤ k) : 0 < rfac k := by
  rw [rfac_of_nonneg h]
  have := Nat.factorial_pos k.toNat
  positivity

/-- The universal recurrence `rfac (k-1) = k * rfac k`, valid for every
integer `k` (both sides vanish in the degenerate cases). -/
lemma rfac_pred (k : ℤ) : rfac (k - 1) = k * rfac k := by
  rcases lt_trichotomy k 0 with hk | hk | hk
  · rw [rfac_of_neg hk, rfac_of_neg (by omega), mul_zero]
  · subst hk
    rw [rfac_of_neg (by norm_num)]
    simp
  · have ha : ((k - 1).toNat : ℤ) = k - 1 := Int.toNat_of_nonneg (by omega)
    have hk1 : (k : ℝ) = ((k - 1).toNat : ℝ) + 1 := by
      have h2 := congrArg (fun z : ℤ => (z : ℝ)) ha
      push_cast at h2
      linarith
    have hf : (0 : ℝ) < ((k - 1).toNat.factorial : ℝ) := by
      exact_mod_cast (k - 1).toNat.factorial_pos
    rw [rfac_of_nonneg (by omega : (0:ℤ) ≤ k - 1), rfac_of_nonneg hk.le,
      show k.toNat = (k - 1).toNat + 1 by omega, Nat.factorial_succ]
    push_cast
    rw [hk1, mul_inv, ← mul_assoc, mul_inv_cancel₀ (by positivity), one_mul]

lemma wsign_even {t : ℤ} (h : Even t) : wsign t = 1 := by simp [wsign, h]

lemma wsign_odd_case {t : ℤ} (h : Odd t) : wsign t = -1 := by
  simp [wsign, Int.not_even_iff_odd.mpr h]

lemma wsign_mul_self (t : ℤ) : wsign t * wsign t = 1 := by
  unfold wsign
  split <;> norm_num

lemma wsign_add (a b : ℤ) : wsign (a + b) = wsign a * wsign b := by
  unfold wsign
  by_cases ha : Even a <;> by_cases hb : Even b <;>
    simp [Int.even_add, ha, hb]

lemma wsign_abs_le (t : ℤ) : |wsign t| ≤ 1 := by
  unfold wsign
  split <;> norm_num

/-- Modelled from the spec: one term of the standard Jacobi-polynomial /
binomial-sum representation of the Wigner small-d element, written in
`x = cos (β/2)`, `y = sin (β/2)`.  Row index `p = J + m`, column index
`q = J + n`, both in `[0, 2J]`; `s` is the summation index. -/
noncomputable def wdTerm (J p q : ℕ) (s : ℤ) (x y : ℝ) : ℝ :=
  wsign ((p : ℤ) + q + s) * rfac ((q : ℤ) - s) * rfac s * rfac ((p : ℤ) - q + s) *
    rfac (2 * (J : ℤ) - p - s) *
    x ^ (2 * (J : ℤ) - p + q - 2 * s).toNat * y ^ ((p : ℤ) - q + 2 * s).toNat

/-- The square-root normalisation factor of the binomial-sum representation. -/
noncomputable def wdKfac (J p q : ℕ) : ℝ :=
  Real.sqrt ((p.factorial * (2 * J - p).factorial * q.factorial * (2 * J - q).factorial : ℕ))

/-- Modelled from the spec: the Wigner small-d element `d^J_{m,n}(β)` of the
table builder, in the shifted indexing `p = J + m`, `q = J + n`. -/
noncomputable def wd (J p q : ℕ) (β : ℝ) : ℝ :=
  wdKfac J p q *
    ∑ s in Finset.Icc (0 : ℤ) (2 * J), wdTerm J p q s (Real.cos (β / 2)) (Real.sin (β / 2))

lemma wdKfac_pos (J p q : ℕ) : 0 < wdKfac J p q := by
  unfold wdKfac
  have h1 := p.factorial_pos
  have h2 := (2 * J - p).factorial_pos
  have h3 := q.factorial_pos
  have h4 := (2 * J - q).factorial_pos
  apply Real.sqrt_pos.mpr
  positivity

lemma wdTerm_out {J p q : ℕ} {s : ℤ} (h : s < 0 ∨ 2 * (J : ℤ) < s) (x y : ℝ) :
    wdTerm J p q s x y = 0 := by
  rcases h with h | h
  · rw [wdTerm, rfac_of_neg h]
    ring
  · rw [wdTerm, rfac_of_neg (show 2 * (J : ℤ) - p - s < 0 by omega)]
    ring

lemma wdTerm_support {J p q : ℕ} {s : ℤ} (x y : ℝ)
    (h : s < 0 ∨ s < (q : ℤ) - p ∨ (q : ℤ) < s ∨ 2 * (J : ℤ) - p < s) :
    wdTerm J p q s x y = 0 := by
  rcases h with h | h | h | h
  · rw [wdTerm, rfac_of_neg h]; ring
  · rw [wdTerm, rfac_of_neg (show (p : ℤ) - q + s < 0 by omega)]; ring
  · rw [wdTerm, rfac_of_neg (show (q : ℤ) - s < 0 by omega)]; ring
  · rw [wdTerm, rfac_of_neg (show 2 * (J : ℤ) - p - s < 0 by omega)]; ring

lemma wdTerm_sum_eq (J p q : ℕ) (x y : ℝ) {A B : ℤ}
    (hA : A ≤ max 0 ((q : ℤ) - p)) (hB : min (q : ℤ) (2 * (J : ℤ) - p) ≤ B) :
    ∑ s in Finset.Icc A B, wdTerm J p q s x y =
      ∑ s in Finset.Icc (max 0 ((q : ℤ) - p)) (min (q : ℤ) (2 * (J : ℤ) - p)),
        wdTerm J p q s x y := by
  apply (Finset.sum_subset ?_ ?_).symm
  · intro s hs
    simp only [Finset.mem_Icc] at hs ⊢
    omega
  · intro s hs hns
    simp only [Finset.mem_Icc] at hs hns
    exact wdTerm_support x y (by omega)

lemma wdTerm_sum_ext (J p q : ℕ) (x y : ℝ) {A B : ℤ} (hA : A ≤ 0) (hB : 2 * (J : ℤ) ≤ B) :
    ∑ s in Finset.Icc A B, wdTerm J p q s x y =
      ∑ s in Finset.Icc (0 : ℤ) (2 * J), wdTerm J p q s x y := by
  rw [wdTerm_sum_eq J p q x y (by omega) (by omega),
    wdTerm_sum_eq J p q x y (A := 0) (B := 2 * J) (by omega) (by omega)]

lemma wdTerm_transpose (J p q : ℕ) (s : ℤ) (x y : ℝ) :
    wdTerm J q p (s + p - q) x y = wsign ((p : ℤ) + q) * wdTerm J p q s x y := by
  unfold wdTerm
  rw [show ((p : ℤ)) - (s + p - q) = (q : ℤ) - s from by ring,
    show ((q : ℤ)) - p + (s + p - q) = s from by ring,
    show 2 * (J : ℤ) - q - (s + p - q) = 2 * (J : ℤ) - p - s from by ring,
    show 2 * (J : ℤ) - q + p - 2 * (s + p - q) = 2 * (J : ℤ) - p + q - 2 * s from by ring,
    show ((q : ℤ)) - p + 2 * (s + p - q) = (p : ℤ) - q + 2 * s from by ring,
    show ((q : ℤ)) + p + (s + p - q) = 2 * (p : ℤ) + s from by ring]
  have hsgn : wsign ((p : ℤ) + q) * wsign ((p : ℤ) + q + s) = wsign (2 * (p : ℤ) + s) := by
    rw [← wsign_add,
      show ((p : ℤ) + q) + ((p : ℤ) + q + s) = ((q : ℤ) + q) + (2 * (p : ℤ) + s) from by ring,
      wsign_add, wsign_even ⟨(q : ℤ), rfl⟩, one_mul]
  rw [← hsgn]
  ring

lemma wdKfac_transpose (J p q : ℕ) : wdKfac J q p = wdKfac J p q := by
  unfold wdKfac
  rw [show q.factorial * (2 * J - q).factorial * p.factorial * (2 * J - p).factorial
      = p.factorial * (2 * J - p).factorial * q.factorial * (2 * J - q).factorial from by ring]

/-- Symmetry `d^j_{m,n} = (-1)^{m-n} d^j_{n,m}` at the level of the shifted
indexing: transposing the block picks up the sign `(-1)^{p+q}`. -/
lemma wd_transpose (J p q : ℕ) (β : ℝ) : wd J q p β = wsign ((p : ℤ) + q) * wd J p q β := by
  unfold wd
  rw [wdKfac_transpose]
  have hmap : ∑ s in Finset.Icc (0 : ℤ) (2 * J), wdTerm J q p s (Real.cos (β / 2)) (Real.sin (β / 2))
      = ∑ s in Finset.Icc ((q : ℤ) - p) (2 * (J : ℤ) + q - p),
          wdTerm J q p (s + ((p : ℤ) - q)) (Real.cos (β / 2)) (Real.sin (β / 2)) := by
    rw [show Finset.Icc (0 : ℤ) (2 * (J : ℤ))
        = (Finset.Icc ((q : ℤ) - p) (2 * (J : ℤ) + q - p)).map
            (addRightEmbedding ((p : ℤ) - q)) from by
      rw [Finset.map_add_right_Icc]
      congr 1 <;> ring]
    rw [Finset.sum_map]
    simp only [addRightEmbedding_apply]
  rw [hmap]
  have hterm : ∀ s ∈ Finset.Icc ((q : ℤ) - p) (2 * (J : ℤ) + q - p),
      wdTerm J q p (s + ((p : ℤ) - q)) (Real.cos (β / 2)) (Real.sin (β / 2))
        = wsign ((p : ℤ) + q) * wdTerm J p q s (Real.cos (β / 2)) (Real.sin (β / 2)) := by
    intro s _
    rw [show s + ((p : ℤ) - q) = s + p - q from by ring]
    exact wdTerm_transpose J p q s _ _
  rw [Finset.sum_congr rfl hterm, ← Finset.mul_sum]
  rw [wdTerm_sum_eq J p q _ _ (by omega) (by omega),
    wdTerm_sum_eq J p q _ _ (A := 0) (B := 2 * J) (by omega) (by omega)]
  ring

lemma wdTerm_reflect (J p q : ℕ) (hp : p ≤ 2 * J) (hq : q ≤ 2 * J) (s : ℤ) (x y : ℝ) :
    wdTerm J (2 * J - q) (2 * J - p) s x y = wdTerm J p q s x y := by
  unfold wdTerm
  have c1 : ((2 * J - q : ℕ) : ℤ) = 2 * (J : ℤ) - q := by omega
  have c2 : ((2 * J - p : ℕ) : ℤ) = 2 * (J : ℤ) - p := by omega
  rw [c1, c2]
  rw [show (2 * (J : ℤ) - q) - (2 * (J : ℤ) - p) + s = (p : ℤ) - q + s from by ring,
    show 2 * (J : ℤ) - (2 * (J : ℤ) - q) - s = (q : ℤ) - s from by ring,
    show 2 * (J : ℤ) - (2 * (J : ℤ) - q) + (2 * (J : ℤ) - p) - 2 * s
      = 2 * (J : ℤ) - p + q - 2 * s from by ring,
    show (2 * (J : ℤ) - q) - (2 * (J : ℤ) - p) + 2 * s = (p : ℤ) - q + 2 * s from by ring,
    show (2 * (J : ℤ) - q) + (2 * (J : ℤ) - p) + s = ((p : ℤ) + q + s) + ((2 * (J : ℤ) - p - q) + (2 * (J : ℤ) - p - q)) from by ring]
  rw [wsign_add, wsign_even ⟨2 * (J : ℤ) - p - q, rfl⟩, mul_one]
  ring

lemma wdKfac_reflect (J p q : ℕ) (hp : p ≤ 2 * J) (hq : q ≤ 2 * J) :
    wdKfac J (2 * J - q) (2 * J - p) = wdKfac J p q := by
  unfold wdKfac
  rw [show 2 * J - (2 * J - q) = q from by omega, show 2 * J - (2 * J - p) = p from by omega]
  rw [show (2 * J - q).factorial * q.factorial * (2 * J - p).factorial * p.factorial
      = p.factorial * (2 * J - p).factorial * q.factorial * (2 * J - q).factorial from by ring]

/-- Symmetry `d^j_{m,n} = d^j_{-n,-m}` in the shifted indexing. -/
lemma wd_reflect (J p q : ℕ) (hp : p ≤ 2 * J) (hq : q ≤ 2 * J) (β : ℝ) :
    wd J (2 * J - q) (2 * J - p) β = wd J p q β := by
  unfold wd
  rw [wdKfac_reflect J p q hp hq]
  congr 1
  apply Finset.sum_congr rfl
  intro s _
  exact wdTerm_reflect J p q hp hq s _ _

lemma wdKfac_diag (J p : ℕ) (hp : p ≤ 2 * J) :
    wdKfac J p p = ((p.factorial * (2 * J - p).factorial : ℕ) : ℝ) := by
  unfold wdKfac
  rw [show (p.factorial * (2 * J - p).factorial * p.factorial * (2 * J - p).factorial : ℕ)
      = ((p.factorial * (2 * J - p).factorial) * (p.factorial * (2 * J - p).factorial) : ℕ)
      from by ring]
  push_cast
  rw [show ((p.factorial : ℝ) * ((2 * J - p).factorial : ℝ))
      * ((p.factorial : ℝ) * ((2 * J - p).factorial : ℝ))
      = ((p.factorial : ℝ) * ((2 * J - p).factorial : ℝ)) ^ 2 from by ring]
  exact Real.sqrt_sq (by positivity)

/-- At angles where `sin (β/2) = 0` (β an exact multiple of 2π) the table
entry is the Kronecker delta `δ_{p,q}`. -/
lemma wd_sin_zero {J p q : ℕ} (hp : p ≤ 2 * J) (hq : q ≤ 2 * J) {β : ℝ}
    (h : Real.sin (β / 2) = 0) : wd J p q β = if p = q then 1 else 0 := by
  have hx2 : Real.cos (β / 2) ^ 2 = 1 := by
    have hpy := Real.sin_sq_add_cos_sq (β / 2)
    rw [h] at hpy
    nlinarith
  by_cases hpq : p = q
  · subst hpq
    rw [if_pos rfl]
    unfold wd
    rw [Finset.sum_eq_single (0 : ℤ)]
    · rw [wdTerm, h]
      rw [show ((p : ℤ)) - p + 2 * 0 = 0 from by ring, show ((p : ℤ)) - p + 0 = 0 from by ring,
        show ((p : ℤ)) - 0 = (p : ℤ) from by ring, show 2 * (J : ℤ) - p - 0 = 2 * (J : ℤ) - p from by ring,
        show 2 * (J : ℤ) - p + p - 2 * 0 = 2 * (J : ℤ) - p + p from by ring]
      rw [wsign_even ⟨(p : ℤ), by ring⟩]
      rw [rfac_of_nonneg (by omega : (0 : ℤ) ≤ (p : ℤ)), rfac_of_nonneg (le_refl (0 : ℤ)),
        rfac_of_nonneg (by omega : (0 : ℤ) ≤ 2 * (J : ℤ) - p)]
      rw [wdKfac_diag J p hp]
      have e1 : ((p : ℤ)).toNat = p := by omega
      have e2 : ((0 : ℤ)).toNat = 0 := by omega
      have e3 : (2 * (J : ℤ) - p).toNat = 2 * J - p := by omega
      have e4 : (2 * (J : ℤ) - p + p).toNat = 2 * J := by omega
      rw [e1, e2, e3, e4]
      rw [pow_mul, hx2, one_pow]
      have f1 : (0 : ℝ) < (p.factorial : ℝ) := by exact_mod_cast p.factorial_pos
      have f2 : (0 : ℝ) < ((2 * J - p).factorial : ℝ) := by
        exact_mod_cast (2 * J - p).factorial_pos
      push_cast
      field_simp
    · intro s hs hs0
      rw [wdTerm, h]
      rcases lt_or_gt_of_ne hs0 with hneg | hpos
      · simp only [Finset.mem_Icc] at hs
        omega
      · rw [zero_pow (show ((p : ℤ) - p + 2 * s).toNat ≠ 0 from by omega)]
        ring
    · intro habs
      exact absurd (Finset.mem_Icc.mpr ⟨le_refl 0, by omega⟩) habs
  · rw [if_neg hpq]
    unfold wd
    rw [Finset.sum_eq_zero, mul_zero]
    intro s hs
    simp only [Finset.mem_Icc] at hs
    by_cases hz : (p : ℤ) - q + s < 0
    · rw [wdTerm, rfac_of_neg hz]
      ring
    · rw [wdTerm, h, zero_pow (show ((p : ℤ) - q + 2 * s).toNat ≠ 0 from by
        have : (p : ℤ) ≠ (q : ℤ) := by exact_mod_cast hpq
        omega)]
      ring

/-- At angles where `cos (β/2) = 0` (β an odd multiple of π) the table entry
is `(-1)^p` on the anti-diagonal `p + q = 2J` and `0` elsewhere. -/
lemma wd_cos_zero {J p q : ℕ} (hp : p ≤ 2 * J) (hq : q ≤ 2 * J) {β : ℝ}
    (h : Real.cos (β / 2) = 0) : wd J p q β = if p + q = 2 * J then wsign p else 0 := by
  have hy2 : Real.sin (β / 2) ^ 2 = 1 := by
    have hpy := Real.sin_sq_add_cos_sq (β / 2)
    rw [h] at hpy
    nlinarith
  by_cases hpq : p + q = 2 * J
  · rw [if_pos hpq]
    unfold wd
    rw [Finset.sum_eq_single ((q : ℕ) : ℤ)]
    · rw [wdTerm, h]
      rw [show ((q : ℤ)) - q = 0 from by ring,
        show ((p : ℤ)) - q + q = (p : ℤ) from by ring,
        show 2 * (J : ℤ) - p - q = 2 * (J : ℤ) - p - q from rfl,
        show 2 * (J : ℤ) - p + q - 2 * q = 2 * (J : ℤ) - p - q from by ring,
        show ((p : ℤ)) - q + 2 * q = (p : ℤ) + q from by ring,
        show ((p : ℤ)) + q + q = (p : ℤ) + ((q : ℤ) + q) from by ring]
      rw [wsign_add, wsign_even ⟨(q : ℤ), rfl⟩, mul_one]
      have hz : 2 * (J : ℤ) - p - q = 0 := by omega
      rw [hz]
      rw [rfac_of_nonneg (le_refl (0 : ℤ)), rfac_of_nonneg (by omega : (0 : ℤ) ≤ (q : ℤ)),
        rfac_of_nonneg (by omega : (0 : ℤ) ≤ (p : ℤ))]
      have e1 : ((0 : ℤ)).toNat = 0 := by omega
      have e2 : ((q : ℤ)).toNat = q := by omega
      have e3 : ((p : ℤ)).toNat = p := by omega
      have e4 : ((p : ℤ) + q).toNat = 2 * J := by omega
      rw [e1, e2, e3, e4]
      rw [pow_mul, hy2, one_pow]
      have hK : wdKfac J p q = ((p.factorial * q.factorial : ℕ) : ℝ) := by
        unfold wdKfac
        rw [show 2 * J - p = q from by omega, show 2 * J - q = p from by omega]
        rw [show (p.factorial * q.factorial * q.factorial * p.factorial : ℕ)
            = ((p.factorial * q.factorial) * (p.factorial * q.factorial) : ℕ) from by ring]
        push_cast
        rw [show ((p.factorial : ℝ) * (q.factorial : ℝ)) * ((p.factorial : ℝ) * (q.factorial : ℝ))
            = ((p.factorial : ℝ) * (q.factorial : ℝ)) ^ 2 from by ring]
        exact Real.sqrt_sq (by positivity)
      rw [hK]
      have f1 : (0 : ℝ) < (p.factorial : ℝ) := by exact_mod_cast p.factorial_pos
      have f2 : (0 : ℝ) < (q.factorial : ℝ) := by exact_mod_cast q.factorial_pos
      push_cast
      field_simp
      ring
    · intro s hs hsq
      simp only [Finset.mem_Icc] at hs
      by_cases h1 : (q : ℤ) - s < 0
      · rw [wdTerm, rfac_of_neg h1]; ring
      · by_cases h2 : 2 * (J : ℤ) - p - s < 0
        · rw [wdTerm, rfac_of_neg h2]; ring
        · rw [wdTerm, h, zero_pow (show (2 * (J : ℤ) - p + q - 2 * s).toNat ≠ 0 from by omega)]
          ring
    · intro habs
      exact absurd (Finset.mem_Icc.mpr ⟨by omega, by omega⟩) habs
  · rw [if_neg hpq]
    unfold wd
    rw [Finset.sum_eq_zero, mul_zero]
    intro s hs
    simp only [Finset.mem_Icc] at hs
    by_cases h1 : (q : ℤ) - s < 0
    · rw [wdTerm, rfac_of_neg h1]; ring
    · by_cases h2 : 2 * (J : ℤ) - p - s < 0
      · rw [wdTerm, rfac_of_neg h2]; ring
      · rw [wdTerm, h, zero_pow (show (2 * (J : ℤ) - p + q - 2 * s).toNat ≠ 0 from by
          have : (p : ℕ) + q ≠ 2 * J := hpq
          omega)]
        ring

lemma wsign_succ (t : ℤ) : wsign (t + 1) = -wsign t := by
  unfold wsign
  by_cases h : Even t
  · rw [if_pos h, if_neg (by simpa [Int.even_add_one] using h)]
  · rw [if_neg h, if_pos (by simpa [Int.even_add_one] using h)]
    norm_num

lemma wsign_pred (t : ℤ) : wsign (t - 1) = -wsign t := by
  have := wsign_succ (t - 1)
  rw [sub_add_cancel] at this
  rw [this]
  ring

lemma wsign_add_two (t : ℤ) : wsign (t + 2) = wsign t := by
  rw [show t + 2 = (t + 1) + 1 from by ring, wsign_succ, wsign_succ, neg_neg]

/-- The `y`-raising half of the β-derivative of one binomial-sum term. -/
noncomputable def wdYa (J p q : ℕ) (s : ℤ) (x y : ℝ) : ℝ :=
  wsign ((p : ℤ) + q + s) * rfac ((q : ℤ) - s) * rfac s * rfac ((p : ℤ) - q + s) *
    rfac (2 * (J : ℤ) - p - s) *
    ((((p : ℤ) - q + 2 * s).toNat : ℝ) *
      (x ^ ((2 * (J : ℤ) - p + q - 2 * s).toNat + 1) * y ^ (((p : ℤ) - q + 2 * s).toNat - 1)))

/-- The `y`-lowering half of the β-derivative of one binomial-sum term. -/
noncomputable def wdXa (J p q : ℕ) (s : ℤ) (x y : ℝ) : ℝ :=
  wsign ((p : ℤ) + q + s) * rfac ((q : ℤ) - s) * rfac s * rfac ((p : ℤ) - q + s) *
    rfac (2 * (J : ℤ) - p - s) *
    ((((2 * (J : ℤ) - p + q - 2 * s).toNat : ℝ)) *
      (x ^ ((2 * (J : ℤ) - p + q - 2 * s).toNat - 1) * y ^ (((p : ℤ) - q + 2 * s).toNat + 1)))

/-- The binomial-sum term with an integer column index, used to phrase the
three-term recursion uniformly (it vanishes identically for `qz = -1` and
`qz = 2J + 1`). -/
noncomputable def wdTermZ (J p : ℕ) (qz : ℤ) (s : ℤ) (x y : ℝ) : ℝ :=
  wsign ((p : ℤ) + qz + s) * rfac (qz - s) * rfac s * rfac ((p : ℤ) - qz + s) *
    rfac (2 * (J : ℤ) - p - s) *
    x ^ (2 * (J : ℤ) - p + qz - 2 * s).toNat * y ^ ((p : ℤ) - qz + 2 * s).toNat

lemma wdTermZ_natCast (J p q : ℕ) (s : ℤ) (x y : ℝ) :
    wdTermZ J p (q : ℤ) s x y = wdTerm J p q s x y := rfl

lemma wdTermZ_out {J p : ℕ} {qz s : ℤ} (x y : ℝ) (h : s < 0 ∨ 2 * (J : ℤ) - p < s) :
    wdTermZ J p qz s x y = 0 := by
  rcases h with h | h
  · rw [wdTermZ, rfac_of_neg h]; ring
  · rw [wdTermZ, rfac_of_neg (show 2 * (J : ℤ) - p - s < 0 by omega)]; ring

lemma wdTermZ_neg_one {J p : ℕ} {s : ℤ} (x y : ℝ) : wdTermZ J p (-1) s x y = 0 := by
  rcases lt_or_le s 0 with h | h
  · rw [wdTermZ, rfac_of_neg h]; ring
  · rw [wdTermZ, rfac_of_neg (show (-1 : ℤ) - s < 0 by omega)]; ring

lemma wdTermZ_top_col {J p : ℕ} {s : ℤ} (x y : ℝ) :
    wdTermZ J p (2 * (J : ℤ) + 1) s x y = 0 := by
  rcases lt_or_le s (2 * (J : ℤ) + 1 - p) with h | h
  · rw [wdTermZ, rfac_of_neg (show (p : ℤ) - (2 * (J : ℤ) + 1) + s < 0 by omega)]; ring
  · rw [wdTermZ, rfac_of_neg (show 2 * (J : ℤ) - p - s < 0 by omega)]; ring

lemma wdYa_out {J p q : ℕ} {s : ℤ} (x y : ℝ) (h : s < 0 ∨ 2 * (J : ℤ) < s) :
    wdYa J p q s x y = 0 := by
  rcases h with h | h
  · rw [wdYa, rfac_of_neg h]; ring
  · rw [wdYa, rfac_of_neg (show 2 * (J : ℤ) - p - s < 0 by omega)]; ring

lemma wdXa_out {J p q : ℕ} {s : ℤ} (x y : ℝ) (h : s < 0 ∨ 2 * (J : ℤ) < s) :
    wdXa J p q s x y = 0 := by
  rcases h with h | h
  · rw [wdXa, rfac_of_neg h]; ring
  · rw [wdXa, rfac_of_neg (show 2 * (J : ℤ) - p - s < 0 by omega)]; ring

lemma toNat_cast_eq {z : ℤ} (h : 0 ≤ z) : ((z.toNat : ℕ) : ℝ) = (z : ℝ) := by
  exact_mod_cast congrArg (fun t : ℤ => (t : ℝ)) (Int.toNat_of_nonneg h)

lemma coeff_pow_x (z : ℤ) (x y : ℝ) (W : ℕ) :
    ((z.toNat : ℕ) : ℝ) * (x ^ (z.toNat - 1) * y ^ W)
      = ((z.toNat : ℕ) : ℝ) * (x ^ (z - 1).toNat * y ^ W) := by
  rcases le_or_lt z 0 with h | h
  · rw [Int.toNat_of_nonpos h]
    norm_num
  · rw [show z.toNat - 1 = (z - 1).toNat from by omega]

lemma coeff_pow_y (z : ℤ) (x y : ℝ) (W : ℕ) :
    ((z.toNat : ℕ) : ℝ) * (x ^ W * y ^ (z.toNat - 1))
      = ((z.toNat : ℕ) : ℝ) * (x ^ W * y ^ (z - 1).toNat) := by
  rcases le_or_lt z 0 with h | h
  · rw [Int.toNat_of_nonpos h]
    norm_num
  · rw [show z.toNat - 1 = (z - 1).toNat from by omega]

/-- Per-term core of the three-term β-derivative recursion of the binomial
sum, a universal identity of reciprocal factorials: the `y`-raising and
`y`-lowering halves of the derivative recombine into the two neighbouring
column terms. -/
lemma contig_core (a b e f : ℤ) (x y : ℝ) :
    rfac (a - 1) * rfac (b + 1) * rfac (e + 1) * rfac (f - 1) *
        (((b + e + 2).toNat : ℝ) * (x ^ ((a + f - 2).toNat + 1) * y ^ ((b + e + 2).toNat - 1)))
      + rfac a * rfac b * rfac e * rfac f *
        (((a + f).toNat : ℝ) * (x ^ ((a + f).toNat - 1) * y ^ ((b + e).toNat + 1)))
    = ((e + f + 1 : ℤ) : ℝ) *
        (rfac (a - 1) * rfac b * rfac (e + 1) * rfac f *
          (x ^ (a + f - 1).toNat * y ^ (b + e + 1).toNat))
      + ((a + b + 1 : ℤ) : ℝ) *
        (rfac a * rfac (b + 1) * rfac e * rfac (f - 1) *
          (x ^ (a + f - 1).toNat * y ^ (b + e + 1).toNat)) := by
  have hra : rfac (a - 1) = (a : ℝ) * rfac a := rfac_pred a
  have hrf : rfac (f - 1) = (f : ℝ) * rfac f := rfac_pred f
  have hrb : rfac b = ((b + 1 : ℤ) : ℝ) * rfac (b + 1) := by
    have h := rfac_pred (b + 1)
    rw [show b + 1 - 1 = b from by ring] at h
    exact h
  have hre : rfac e = ((e + 1 : ℤ) : ℝ) * rfac (e + 1) := by
    have h := rfac_pred (e + 1)
    rw [show e + 1 - 1 = e from by ring] at h
    exact h
  rw [hra, hrf, hrb, hre]
  by_cases ha : 0 ≤ a
  case neg =>
    rw [rfac_of_neg (show a < 0 by omega)]
    ring
  by_cases hb : -1 ≤ b
  case neg =>
    rw [rfac_of_neg (show b + 1 < 0 by omega)]
    ring
  by_cases he : -1 ≤ e
  case neg =>
    rw [rfac_of_neg (show e + 1 < 0 by omega)]
    ring
  by_cases hf : 0 ≤ f
  case neg =>
    rw [rfac_of_neg (show f < 0 by omega)]
    ring
  rw [coeff_pow_y (b + e + 2) x y ((a + f - 2).toNat + 1),
    coeff_pow_x (a + f) x y ((b + e).toNat + 1),
    show (b + e + 2 - 1 : ℤ) = b + e + 1 from by ring,
    toNat_cast_eq (show (0 : ℤ) ≤ b + e + 2 by omega),
    toNat_cast_eq (show (0 : ℤ) ≤ a + f by omega)]
  by_cases hx2 : 2 ≤ a + f
  · rw [show (a + f - 2).toNat + 1 = (a + f - 1).toNat from by omega]
    by_cases hy0 : 0 ≤ b + e
    · rw [show (b + e).toNat + 1 = (b + e + 1).toNat from by omega]
      push_cast
      ring
    · rcases (show b = -1 ∨ e = -1 by omega) with h' | h'
      · have kb : (b : ℝ) = -1 := by exact_mod_cast congrArg (fun t : ℤ => (t : ℝ)) h'
        push_cast
        rw [kb]
        ring
      · have ke : (e : ℝ) = -1 := by exact_mod_cast congrArg (fun t : ℤ => (t : ℝ)) h'
        push_cast
        rw [ke]
        ring
  · rcases (show a = 0 ∨ f = 0 by omega) with h'' | h''
    · have ka : (a : ℝ) = 0 := by exact_mod_cast congrArg (fun t : ℤ => (t : ℝ)) h''
      by_cases hy0 : 0 ≤ b + e
      · rw [show (b + e).toNat + 1 = (b + e + 1).toNat from by omega]
        push_cast
        rw [ka]
        ring
      · rcases (show b = -1 ∨ e = -1 by omega) with h' | h'
        · have kb : (b : ℝ) = -1 := by exact_mod_cast congrArg (fun t : ℤ => (t : ℝ)) h'
          push_cast
          rw [ka, kb]
          ring
        · have ke : (e : ℝ) = -1 := by exact_mod_cast congrArg (fun t : ℤ => (t : ℝ)) h'
          push_cast
          rw [ka, ke]
          ring
    · have kf : (f : ℝ) = 0 := by exact_mod_cast congrArg (fun t : ℤ => (t : ℝ)) h''
      by_cases hy0 : 0 ≤ b + e
      · rw [show (b + e).toNat + 1 = (b + e + 1).toNat from by omega]
        push_cast
        rw [kf]
        ring
      · rcases (show b = -1 ∨ e = -1 by omega) with h' | h'
        · have kb : (b : ℝ) = -1 := by exact_mod_cast congrArg (fun t : ℤ => (t : ℝ)) h'
          push_cast
          rw [kf, kb]
          ring
        · have ke : (e : ℝ) = -1 := by exact_mod_cast congrArg (fun t : ℤ => (t : ℝ)) h'
          push_cast
          rw [kf, ke]
          ring

/-- The β-derivative halves of the binomial-sum term at one summation index
recombine into the two neighbouring column terms (three-term recursion in the
column index, at the level of a single term). -/
lemma contig_step (J p q : ℕ) (hq : q ≤ 2 * J) (s : ℤ) (x y : ℝ) :
    wdYa J p q (s + 1) x y - wdXa J p q s x y
      = ((2 * J + 1 - q : ℕ) : ℝ) * wdTermZ J p ((q : ℤ) - 1) s x y
        - ((q + 1 : ℕ) : ℝ) * wdTermZ J p ((q : ℤ) + 1) (s + 1) x y := by
  have hC1 : ((2 * J + 1 - q : ℕ) : ℝ)
      = (((((p : ℤ) - q + s) + (2 * (J : ℤ) - p - s) + 1) : ℤ) : ℝ) := by
    have h1 : ((2 * J + 1 - q : ℕ) : ℤ) = (((p : ℤ) - q + s) + (2 * (J : ℤ) - p - s) + 1) := by
      omega
    exact_mod_cast congrArg (fun t : ℤ => (t : ℝ)) h1
  have hC2 : ((q + 1 : ℕ) : ℝ) = ((((q : ℤ) - s) + s + 1 : ℤ) : ℝ) := by
    have h1 : ((q + 1 : ℕ) : ℤ) = (((q : ℤ) - s) + s + 1) := by omega
    exact_mod_cast congrArg (fun t : ℤ => (t : ℝ)) h1
  rw [hC1, hC2]
  unfold wdYa wdXa wdTermZ
  rw [show (p : ℤ) + q + (s + 1) = ((p : ℤ) + q + s) + 1 from by ring,
    show (p : ℤ) + ((q : ℤ) - 1) + s = ((p : ℤ) + q + s) - 1 from by ring,
    show (p : ℤ) + ((q : ℤ) + 1) + (s + 1) = ((p : ℤ) + q + s) + 2 from by ring,
    wsign_succ ((p : ℤ) + q + s), wsign_pred ((p : ℤ) + q + s), wsign_add_two ((p : ℤ) + q + s)]
  rw [show (q : ℤ) - (s + 1) = (q : ℤ) - s - 1 from by ring,
    show ((q : ℤ) - 1) - s = (q : ℤ) - s - 1 from by ring,
    show ((q : ℤ) + 1) - (s + 1) = (q : ℤ) - s from by ring,
    show (p : ℤ) - q + (s + 1) = ((p : ℤ) - q + s) + 1 from by ring,
    show (p : ℤ) - ((q : ℤ) - 1) + s = ((p : ℤ) - q + s) + 1 from by ring,
    show (p : ℤ) - ((q : ℤ) + 1) + (s + 1) = (p : ℤ) - q + s from by ring,
    show 2 * (J : ℤ) - p - (s + 1) = (2 * (J : ℤ) - p - s) - 1 from by ring]
  rw [show (p : ℤ) - q + 2 * (s + 1) = s + ((p : ℤ) - q + s) + 2 from by ring,
    show 2 * (J : ℤ) - p + q - 2 * (s + 1) = (q : ℤ) - s + (2 * (J : ℤ) - p - s) - 2 from by ring,
    show 2 * (J : ℤ) - p + q - 2 * s = (q : ℤ) - s + (2 * (J : ℤ) - p - s) from by ring,
    show (p : ℤ) - q + 2 * s = s + ((p : ℤ) - q + s) from by ring,
    show 2 * (J : ℤ) - p + ((q : ℤ) - 1) - 2 * s
      = (q : ℤ) - s + (2 * (J : ℤ) - p - s) - 1 from by ring,
    show (p : ℤ) - ((q : ℤ) - 1) + 2 * s = s + ((p : ℤ) - q + s) + 1 from by ring,
    show 2 * (J : ℤ) - p + ((q : ℤ) + 1) - 2 * (s + 1)
      = (q : ℤ) - s + (2 * (J : ℤ) - p - s) - 1 from by ring,
    show (p : ℤ) - ((q : ℤ) + 1) + 2 * (s + 1) = s + ((p : ℤ) - q + s) + 1 from by ring]
  have core := contig_core ((q : ℤ) - s) s ((p : ℤ) - q + s) (2 * (J : ℤ) - p - s) x y
  linear_combination (-(wsign ((p : ℤ) + q + s))) * core

lemma sum_Icc_shift (f : ℤ → ℝ) (A B : ℤ) :
    ∑ s in Finset.Icc A B, f (s + 1) = ∑ s in Finset.Icc (A + 1) (B + 1), f s := by
  rw [show Finset.Icc (A + 1) (B + 1) = (Finset.Icc A B).map (addRightEmbedding 1) from by
    rw [Finset.map_add_right_Icc]]
  rw [Finset.sum_map]
  simp only [addRightEmbedding_apply]

lemma sum_Icc_cons_bot (f : ℤ → ℝ) (A B : ℤ) (h : A ≤ B + 1) :
    ∑ s in Finset.Icc (A - 1) B, f s = f (A - 1) + ∑ s in Finset.Icc A B, f s := by
  rw [show Finset.Icc (A - 1) B = insert (A - 1) (Finset.Icc A B) from by
    ext t
    simp only [Finset.mem_Icc, Finset.mem_insert]
    omega]
  rw [Finset.sum_insert (by simp only [Finset.mem_Icc]; omega)]

lemma sum_Icc_top (f : ℤ → ℝ) (A B : ℤ) (h : A ≤ B + 1) :
    ∑ s in Finset.Icc A (B + 1), f s = (∑ s in Finset.Icc A B, f s) + f (B + 1) := by
  rw [show Finset.Icc A (B + 1) = insert (B + 1) (Finset.Icc A B) from by
    ext t
    simp only [Finset.mem_Icc, Finset.mem_insert]
    omega]
  rw [Finset.sum_insert (by simp only [Finset.mem_Icc]; omega)]
  ring

/-- Summed three-term recursion: the β-derivative halves of the binomial sum
recombine into the sums for the two neighbouring columns. -/
lemma wd_sum_relation (J p q : ℕ) (hq : q ≤ 2 * J) (x y : ℝ) :
    ∑ s in Finset.Icc (0 : ℤ) (2 * J), (wdYa J p q s x y - wdXa J p q s x y)
      = ((2 * J + 1 - q : ℕ) : ℝ)
          * ∑ s in Finset.Icc (0 : ℤ) (2 * J), wdTermZ J p ((q : ℤ) - 1) s x y
        - ((q + 1 : ℕ) : ℝ)
          * ∑ s in Finset.Icc (0 : ℤ) (2 * J), wdTermZ J p ((q : ℤ) + 1) s x y := by
  have key : (∑ s in Finset.Icc (-1 : ℤ) (2 * J), (wdYa J p q (s + 1) x y - wdXa J p q s x y))
      = ∑ s in Finset.Icc (-1 : ℤ) (2 * J),
          (((2 * J + 1 - q : ℕ) : ℝ) * wdTermZ J p ((q : ℤ) - 1) s x y
            - ((q + 1 : ℕ) : ℝ) * wdTermZ J p ((q : ℤ) + 1) (s + 1) x y) :=
    Finset.sum_congr rfl fun s _ => contig_step J p q hq s x y
  simp only [Finset.sum_sub_distrib] at key
  have eYa : ∑ s in Finset.Icc (-1 : ℤ) (2 * J), wdYa J p q (s + 1) x y
      = ∑ s in Finset.Icc (0 : ℤ) (2 * J), wdYa J p q s x y := by
    rw [sum_Icc_shift (fun s => wdYa J p q s x y) (-1) (2 * J),
      show (-1 : ℤ) + 1 = 0 from by norm_num,
      sum_Icc_top (fun s => wdYa J p q s x y) 0 (2 * J) (by omega),
      wdYa_out x y (Or.inr (by omega))]
    ring
  have eXa : ∑ s in Finset.Icc (-1 : ℤ) (2 * J), wdXa J p q s x y
      = ∑ s in Finset.Icc (0 : ℤ) (2 * J), wdXa J p q s x y := by
    rw [show (-1 : ℤ) = 0 - 1 from by norm_num,
      sum_Icc_cons_bot (fun s => wdXa J p q s x y) 0 (2 * J) (by omega),
      wdXa_out x y (Or.inl (by omega))]
    ring
  have eT1 : ∑ s in Finset.Icc (-1 : ℤ) (2 * J), wdTermZ J p ((q : ℤ) - 1) s x y
      = ∑ s in Finset.Icc (0 : ℤ) (2 * J), wdTermZ J p ((q : ℤ) - 1) s x y := by
    rw [show (-1 : ℤ) = 0 - 1 from by norm_num,
      sum_Icc_cons_bot (fun s => wdTermZ J p ((q : ℤ) - 1) s x y) 0 (2 * J) (by omega),
      wdTermZ_out x y (Or.inl (by omega))]
    ring
  have eT2 : ∑ s in Finset.Icc (-1 : ℤ) (2 * J), wdTermZ J p ((q : ℤ) + 1) (s + 1) x y
      = ∑ s in Finset.Icc (0 : ℤ) (2 * J), wdTermZ J p ((q : ℤ) + 1) s x y := by
    rw [sum_Icc_shift (fun s => wdTermZ J p ((q : ℤ) + 1) s x y) (-1) (2 * J),
      show (-1 : ℤ) + 1 = 0 from by norm_num,
      sum_Icc_top (fun s => wdTermZ J p ((q : ℤ) + 1) s x y) 0 (2 * J) (by omega),
      wdTermZ_out x y (Or.inr (by omega))]
    ring
  rw [eYa, eXa] at key
  rw [Finset.sum_sub_distrib, key, ← Finset.mul_sum, ← Finset.mul_sum, eT1, eT2]

/-- The ladder coefficient `√(q (2J+1-q))`, i.e. `√((j+n)(j-n+1))` in the
shifted column indexing. -/
noncomputable def acoef (J q : ℕ) : ℝ := Real.sqrt ((q * (2 * J + 1 - q) : ℕ))

/-- The β-derivative of the table entry `wd J p q`, written as the summed
derivative of the binomial representation. -/
noncomputable def wdD (J p q : ℕ) (β : ℝ) : ℝ :=
  wdKfac J p q * (2⁻¹ * ∑ s in Finset.Icc (0 : ℤ) (2 * J),
    (wdYa J p q s (Real.cos (β / 2)) (Real.sin (β / 2))
      - wdXa J p q s (Real.cos (β / 2)) (Real.sin (β / 2))))

lemma bridge_low (J p q : ℕ) (hq : q ≤ 2 * J) (x y : ℝ) :
    acoef J q * (wdKfac J p (q - 1) * ∑ s in Finset.Icc (0 : ℤ) (2 * J), wdTerm J p (q - 1) s x y)
      = ((2 * J + 1 - q : ℕ) : ℝ) *
          (wdKfac J p q * ∑ s in Finset.Icc (0 : ℤ) (2 * J), wdTermZ J p ((q : ℤ) - 1) s x y) := by
  rcases Nat.eq_zero_or_pos q with hq0 | hq0
  · subst hq0
    have hz : ∑ s in Finset.Icc (0 : ℤ) (2 * J), wdTermZ J p (((0 : ℕ) : ℤ) - 1) s x y = 0 := by
      apply Finset.sum_eq_zero
      intro s _
      rw [show (((0 : ℕ) : ℤ) - 1) = (-1 : ℤ) from by norm_num]
      exact wdTermZ_neg_one x y
    rw [hz, mul_zero, mul_zero]
    have ha : acoef J 0 = 0 := by
      unfold acoef
      rw [Nat.zero_mul, Nat.cast_zero, Real.sqrt_zero]
    rw [ha, zero_mul]
  · have hcast : ((q - 1 : ℕ) : ℤ) = (q : ℤ) - 1 := by omega
    have hTZ : ∀ s : ℤ, wdTermZ J p ((q : ℤ) - 1) s x y = wdTerm J p (q - 1) s x y := by
      intro s
      rw [← wdTermZ_natCast, hcast]
    have hfq : q.factorial = q * (q - 1).factorial := by
      have h2 := Nat.factorial_succ (q - 1)
      rw [show q - 1 + 1 = q from by omega] at h2
      exact h2
    have hfQ : (2 * J + 1 - q).factorial = (2 * J + 1 - q) * (2 * J - q).factorial := by
      have h2 := Nat.factorial_succ (2 * J - q)
      rw [show 2 * J - q + 1 = 2 * J + 1 - q from by omega] at h2
      exact h2
    have hKα : acoef J q * wdKfac J p (q - 1) = ((2 * J + 1 - q : ℕ) : ℝ) * wdKfac J p q := by
      unfold acoef wdKfac
      rw [show ((2 * J + 1 - q : ℕ) : ℝ)
          = Real.sqrt ((((2 * J + 1 - q) ^ 2 : ℕ) : ℕ) : ℝ) from by
        push_cast
        rw [Real.sqrt_sq (by positivity)]]
      rw [← Real.sqrt_mul (by positivity), ← Real.sqrt_mul (by positivity),
        ← Nat.cast_mul, ← Nat.cast_mul]
      congr 2
      rw [show 2 * J - (q - 1) = 2 * J + 1 - q from by omega]
      calc q * (2 * J + 1 - q) * (p.factorial * (2 * J - p).factorial
            * (q - 1).factorial * (2 * J + 1 - q).factorial)
          = (q * (q - 1).factorial) * ((2 * J + 1 - q) * (2 * J + 1 - q).factorial)
              * (p.factorial * (2 * J - p).factorial) := by ring
        _ = q.factorial * ((2 * J + 1 - q) * ((2 * J + 1 - q) * (2 * J - q).factorial))
              * (p.factorial * (2 * J - p).factorial) := by rw [← hfq, hfQ]
        _ = (2 * J + 1 - q) ^ 2 * (p.factorial * (2 * J - p).factorial
              * q.factorial * (2 * J - q).factorial) := by ring
    calc acoef J q * (wdKfac J p (q - 1) * ∑ s in Finset.Icc (0 : ℤ) (2 * J), wdTerm J p (q - 1) s x y)
        = (acoef J q * wdKfac J p (q - 1)) * ∑ s in Finset.Icc (0 : ℤ) (2 * J), wdTerm J p (q - 1) s x y := by
          ring
      _ = ((2 * J + 1 - q : ℕ) : ℝ) * wdKfac J p q
            * ∑ s in Finset.Icc (0 : ℤ) (2 * J), wdTermZ J p ((q : ℤ) - 1) s x y := by
          rw [hKα, Finset.sum_congr rfl fun s _ => hTZ s]
      _ = ((2 * J + 1 - q : ℕ) : ℝ) *
            (wdKfac J p q * ∑ s in Finset.Icc (0 : ℤ) (2 * J), wdTermZ J p ((q : ℤ) - 1) s x y) := by
          ring

lemma bridge_high (J p q : ℕ) (hq : q ≤ 2 * J) (x y : ℝ) :
    acoef J (q + 1) * (wdKfac J p (q + 1) * ∑ s in Finset.Icc (0 : ℤ) (2 * J), wdTerm J p (q + 1) s x y)
      = ((q + 1 : ℕ) : ℝ) *
          (wdKfac J p q * ∑ s in Finset.Icc (0 : ℤ) (2 * J), wdTermZ J p ((q : ℤ) + 1) s x y) := by
  rcases eq_or_lt_of_le hq with hq2 | hq2
  · have hz : ∑ s in Finset.Icc (0 : ℤ) (2 * J), wdTermZ J p ((q : ℤ) + 1) s x y = 0 := by
      apply Finset.sum_eq_zero
      intro s _
      rw [show ((q : ℤ) + 1) = 2 * (J : ℤ) + 1 from by omega]
      exact wdTermZ_top_col x y
    have ha : acoef J (q + 1) = 0 := by
      unfold acoef
      rw [show 2 * J + 1 - (q + 1) = 0 from by omega, Nat.mul_zero, Nat.cast_zero,
        Real.sqrt_zero]
    rw [hz, mul_zero, mul_zero, ha, zero_mul]
  · have hcast : ((q + 1 : ℕ) : ℤ) = (q : ℤ) + 1 := by omega
    have hTZ : ∀ s : ℤ, wdTermZ J p ((q : ℤ) + 1) s x y = wdTerm J p (q + 1) s x y := by
      intro s
      rw [← wdTermZ_natCast, hcast]
    have hfq : (q + 1).factorial = (q + 1) * q.factorial := Nat.factorial_succ q
    have hfQ : (2 * J - q).factorial = (2 * J - q) * (2 * J - (q + 1)).factorial := by
      have h2 := Nat.factorial_succ (2 * J - (q + 1))
      rw [show 2 * J - (q + 1) + 1 = 2 * J - q from by omega] at h2
      exact h2
    have hKγ : acoef J (q + 1) * wdKfac J p (q + 1) = ((q + 1 : ℕ) : ℝ) * wdKfac J p q := by
      unfold acoef wdKfac
      rw [show ((q + 1 : ℕ) : ℝ) = Real.sqrt ((((q + 1) ^ 2 : ℕ) : ℕ) : ℝ) from by
        push_cast
        rw [Real.sqrt_sq (by positivity)]]
      rw [← Real.sqrt_mul (by positivity), ← Real.sqrt_mul (by positivity),
        ← Nat.cast_mul, ← Nat.cast_mul]
      congr 2
      rw [show 2 * J + 1 - (q + 1) = 2 * J - q from by omega]
      calc (q + 1) * (2 * J - q) * (p.factorial * (2 * J - p).factorial
            * (q + 1).factorial * (2 * J - (q + 1)).factorial)
          = (q + 1).factorial * ((q + 1) * ((2 * J - q) * (2 * J - (q + 1)).factorial))
              * (p.factorial * (2 * J - p).factorial) := by ring
        _ = ((q + 1) * q.factorial) * ((q + 1) * (2 * J - q).factorial)
              * (p.factorial * (2 * J - p).factorial) := by rw [← hfQ, hfq]
        _ = (q + 1) ^ 2 * (p.factorial * (2 * J - p).factorial
              * q.factorial * (2 * J - q).factorial) := by ring
    calc acoef J (q + 1) * (wdKfac J p (q + 1) * ∑ s in Finset.Icc (0 : ℤ) (2 * J), wdTerm J p (q + 1) s x y)
        = (acoef J (q + 1) * wdKfac J p (q + 1)) * ∑ s in Finset.Icc (0 : ℤ) (2 * J), wdTerm J p (q + 1) s x y := by
          ring
      _ = ((q + 1 : ℕ) : ℝ) * wdKfac J p q
            * ∑ s in Finset.Icc (0 : ℤ) (2 * J), wdTermZ J p ((q : ℤ) + 1) s x y := by
          rw [hKγ, Finset.sum_congr rfl fun s _ => hTZ s]
      _ = ((q + 1 : ℕ) : ℝ) *
            (wdKfac J p q * ∑ s in Finset.Icc (0 : ℤ) (2 * J), wdTermZ J p ((q : ℤ) + 1) s x y) := by
          ring

/-- Three-term recursion for the β-derivative of a table entry:
`2 d' = √((j+n)(j-n+1)) d_{n-1} - √((j-n)(j+n+1)) d_{n+1}` in the shifted
column indexing. -/
lemma wd_contig (J p q : ℕ) (hq : q ≤ 2 * J) (β : ℝ) :
    2 * wdD J p q β = acoef J q * wd J p (q - 1) β - acoef J (q + 1) * wd J p (q + 1) β := by
  unfold wdD wd
  rw [wd_sum_relation J p q hq]
  rw [bridge_low J p q hq, bridge_high J p q hq]
  ring

lemma wdTerm_hasDerivAt (J p q : ℕ) (s : ℤ) (β : ℝ) :
    HasDerivAt (fun b => wdTerm J p q s (Real.cos (b / 2)) (Real.sin (b / 2)))
      (2⁻¹ * (wdYa J p q s (Real.cos (β / 2)) (Real.sin (β / 2))
        - wdXa J p q s (Real.cos (β / 2)) (Real.sin (β / 2)))) β := by
  have hhalf : HasDerivAt (fun b : ℝ => b / 2) (1 / 2) β := by
    simpa using (hasDerivAt_id β).div_const 2
  have hx := (hhalf.cos).pow ((2 * (J : ℤ) - p + q - 2 * s).toNat)
  have hy := (hhalf.sin).pow (((p : ℤ) - q + 2 * s).toNat)
  have hprod := hx.mul hy
  have hfull := hprod.const_mul
    (wsign ((p : ℤ) + q + s) * rfac ((q : ℤ) - s) * rfac s * rfac ((p : ℤ) - q + s) *
      rfac (2 * (J : ℤ) - p - s))
  rw [show (fun b => wdTerm J p q s (Real.cos (b / 2)) (Real.sin (b / 2)))
      = (fun b => (wsign ((p : ℤ) + q + s) * rfac ((q : ℤ) - s) * rfac s *
          rfac ((p : ℤ) - q + s) * rfac (2 * (J : ℤ) - p - s)) *
          (Real.cos (b / 2) ^ (2 * (J : ℤ) - p + q - 2 * s).toNat *
            Real.sin (b / 2) ^ (((p : ℤ) - q + 2 * s).toNat)))
      from funext fun b => by rw [wdTerm]; ring]
  convert hfull using 1
  rw [wdYa, wdXa]
  ring

lemma wd_hasDerivAt (J p q : ℕ) (β : ℝ) :
    HasDerivAt (fun b => wd J p q b) (wdD J p q β) β := by
  have hsum : HasDerivAt
      (fun b => ∑ s in Finset.Icc (0 : ℤ) (2 * J),
        wdTerm J p q s (Real.cos (b / 2)) (Real.sin (b / 2)))
      (∑ s in Finset.Icc (0 : ℤ) (2 * J),
        2⁻¹ * (wdYa J p q s (Real.cos (β / 2)) (Real.sin (β / 2))
          - wdXa J p q s (Real.cos (β / 2)) (Real.sin (β / 2)))) β :=
    HasDerivAt.sum fun s _ => wdTerm_hasDerivAt J p q s β
  have hK := hsum.const_mul (wdKfac J p q)
  unfold wd wdD
  convert hK using 1
  rw [← Finset.mul_sum]

lemma wd_top_zero (J p : ℕ) {q : ℕ} (hq : 2 * J < q) (β : ℝ) : wd J p q β = 0 := by
  unfold wd
  rw [Finset.sum_eq_zero, mul_zero]
  intro s hs
  simp only [Finset.mem_Icc] at hs
  apply wdTerm_support
  rcases lt_or_le s ((q : ℤ) - p) with h | h
  · exact Or.inr (Or.inl h)
  · right; right; right; omega

lemma wd_row_hasDerivAt (J p : ℕ) (β : ℝ) :
    HasDerivAt (fun b => ∑ q in Finset.range (2 * J + 1), (wd J p q b) ^ 2)
      (∑ q in Finset.range (2 * J + 1), 2 * wd J p q β * wdD J p q β) β := by
  apply HasDerivAt.sum
  intro q _
  have h := (wd_hasDerivAt J p q β).pow 2
  convert h using 1
  norm_num

lemma wd_row_deriv_zero (J p : ℕ) (β : ℝ) :
    ∑ q in Finset.range (2 * J + 1), 2 * wd J p q β * wdD J p q β = 0 := by
  have hterm : ∀ q ∈ Finset.range (2 * J + 1),
      2 * wd J p q β * wdD J p q β
        = (fun k => acoef J k * wd J p (k - 1) β * wd J p k β) q
          - (fun k => acoef J k * wd J p (k - 1) β * wd J p k β) (q + 1) := by
    intro q hq
    simp only [Finset.mem_range] at hq
    have h := wd_contig J p q (by omega) β
    have hstep : 2 * wd J p q β * wdD J p q β
        = wd J p q β * (2 * wdD J p q β) := by ring
    rw [hstep, h]
    simp only [Nat.add_sub_cancel]
    ring
  rw [Finset.sum_congr rfl hterm, Finset.sum_range_sub']
  have h0 : acoef J 0 = 0 := by
    unfold acoef
    rw [Nat.zero_mul, Nat.cast_zero, Real.sqrt_zero]
  rw [h0, wd_top_zero J p (show 2 * J < 2 * J + 1 from by omega) β]
  ring

/-- Unitarity of each row of the j-block: the squares of the entries of a row
sum to 1 for every angle. -/
lemma wd_row_norm (J p : ℕ) (hp : p ≤ 2 * J) (β : ℝ) :
    ∑ q in Finset.range (2 * J + 1), (wd J p q β) ^ 2 = 1 := by
  have hdiff : Differentiable ℝ (fun b => ∑ q in Finset.range (2 * J + 1), (wd J p q b) ^ 2) :=
    fun b => (wd_row_hasDerivAt J p b).differentiableAt
  have hderiv : ∀ b, deriv (fun b => ∑ q in Finset.range (2 * J + 1), (wd J p q b) ^ 2) b = 0 := by
    intro b
    rw [(wd_row_hasDerivAt J p b).deriv]
    exact wd_row_deriv_zero J p b
  have hconst := is_const_of_deriv_eq_zero hdiff hderiv β 0
  rw [hconst]
  have hterm : ∀ q ∈ Finset.range (2 * J + 1),
      (wd J p q 0) ^ 2 = if p = q then 1 else 0 := by
    intro q hq
    simp only [Finset.mem_range] at hq
    have hs0 : Real.sin ((0 : ℝ) / 2) = 0 := by
      norm_num
    rw [wd_sin_zero hp (by omega) hs0]
    split <;> norm_num
  rw [Finset.sum_congr rfl hterm, Finset.sum_ite_eq]
  simp only [Finset.mem_range, if_pos (show p < 2 * J + 1 from by omega)]

lemma wsign_eq_zpow (t : ℤ) : wsign t = (-1 : ℝ) ^ t := by
  rcases Int.even_or_odd t with h | h
  · rw [wsign_even h, h.neg_one_zpow]
  · rw [wsign_odd_case h, h.neg_one_zpow]

/-- Modelled from the spec: one entry of the table built by the Table
Builder, with the explicit singular-angle substitution of the design
(§4.1 step 3): β ≡ 0 (mod 2π) gives the Kronecker delta δ_{m,n},
β ≡ π (mod 2π) gives `(-1)^{j-m} δ_{n,-m}`, and generic angles use the
standard Jacobi-polynomial / binomial-sum closed form in `cos (β/2)`,
`sin (β/2)`. -/
noncomputable def dEntry (j m n : ℤ) (β : ℝ) : ℝ :=
  if Real.sin (β / 2) = 0 then (if m = n then 1 else 0)
  else if Real.cos (β / 2) = 0 then (if n = -m then wsign (j - m) else 0)
  else wd j.toNat (j + m).toNat (j + n).toNat β

/-- The two error signals of the engine. -/
inductive dmatrixError
  | invalidDomain : dmatrixError
  | indexOutOfRange : dmatrixError
deriving DecidableEq

/-- Modelled from the spec: the immutable d-matrix table, owning the ceiling
`max_L` fixed at construction, the build angle, and the dense entry
mapping. -/
structure dmatrix where
  max_L : ℕ
  beta : ℝ
  table : ℤ → ℤ → ℤ → ℝ

/-- The table value mapping produced by the builder for a given ceiling and
angle. -/
noncomputable def dmatrixOf (L : ℕ) (β : ℝ) : dmatrix :=
  ⟨L, β, fun j m n => dEntry j m n β⟩

/-- Modelled from the spec: `build(L_max, β)` fails with `InvalidDomain`
exactly for negative `L_max`, and otherwise eagerly builds the full table;
it never fails for any real β. -/
noncomputable def build (L : ℤ) (β : ℝ) : Except dmatrixError dmatrix :=
  if L < 0 then Except.error dmatrixError.invalidDomain
  else Except.ok (dmatrixOf L.toNat β)

/-- Modelled from the spec: the bounds-checked query `value(j, m, n)`.
Violations of `j ≤ L_max`, `|m| ≤ j` or `|n| ≤ j` fail with
`IndexOutOfRange`; a valid query returns the stored entry with no
recomputation. -/
noncomputable def dmatrix.djmn (t : dmatrix) (j m n : ℤ) : Except dmatrixError ℝ :=
  if (t.max_L : ℤ) < j ∨ j < |m| ∨ j < |n| then Except.error dmatrixError.indexOutOfRange
  else Except.ok (t.table j m n)

lemma build_ok {L : ℤ} (hL : 0 ≤ L) (β : ℝ) : build L β = Except.ok (dmatrixOf L.toNat β) := by
  unfold build
  rw [if_neg (not_lt.mpr hL)]

lemma djmn_ok (t : dmatrix) {j m n : ℤ} (hj : j ≤ (t.max_L : ℤ)) (hm : |m| ≤ j) (hn : |n| ≤ j) :
    t.djmn j m n = Except.ok (t.table j m n) := by
  unfold dmatrix.djmn
  rw [if_neg (by push_neg; exact ⟨hj, hm, hn⟩)]

lemma dmatrixOf_table (L : ℕ) (β : ℝ) (j m n : ℤ) :
    (dmatrixOf L β).table j m n = dEntry j m n β := rfl

lemma dmatrixOf_max_L (L : ℕ) (β : ℝ) : (dmatrixOf L β).max_L = L := rfl

/-- For valid indices the (branching) entry function agrees with the closed
form everywhere, because the removable singularities of the closed form take
exactly the substituted limiting values. -/
lemma dEntry_eq_wd {j m n : ℤ} (hm : |m| ≤ j) (hn : |n| ≤ j) (β : ℝ) :
    dEntry j m n β = wd j.toNat (j + m).toNat (j + n).toNat β := by
  obtain ⟨hm1, hm2⟩ := abs_le.mp hm
  obtain ⟨hn1, hn2⟩ := abs_le.mp hn
  have hp : (j + m).toNat ≤ 2 * j.toNat := by omega
  have hq : (j + n).toNat ≤ 2 * j.toNat := by omega
  unfold dEntry
  split
  case isTrue hs =>
    rw [wd_sin_zero hp hq hs]
    by_cases hmn : m = n
    · rw [if_pos hmn, if_pos (by omega)]
    · rw [if_neg hmn, if_neg (by omega)]
  case isFalse hs =>
    split
    case isTrue hc =>
      rw [wd_cos_zero hp hq hc]
      by_cases hmn : n = -m
      · rw [if_pos hmn, if_pos (by omega)]
        have harg : (((j + m).toNat : ℕ) : ℤ) = (j - m) + (m + m) := by omega
        rw [harg, wsign_add, wsign_even ⟨m, rfl⟩, mul_one]
      · rw [if_neg hmn, if_neg (by omega)]
    case isFalse hc =>
      rfl

lemma dEntry_beta_two_pi_mul (j m n : ℤ) (k : ℤ) :
    dEntry j m n (2 * Real.pi * k) = if m = n then 1 else 0 := by
  have hs : Real.sin ((2 * Real.pi * (k : ℝ)) / 2) = 0 := by
    rw [show (2 * Real.pi * (k : ℝ)) / 2 = (k : ℝ) * Real.pi from by ring]
    exact Real.sin_int_mul_pi k
  unfold dEntry
  rw [if_pos hs]

lemma dEntry_beta_odd_pi (j m n : ℤ) (k : ℤ) :
    dEntry j m n ((2 * (k : ℝ) + 1) * Real.pi) = if n = -m then wsign (j - m) else 0 := by
  have harg : ((2 * (k : ℝ) + 1) * Real.pi) / 2 = (k : ℝ) * Real.pi + Real.pi / 2 := by
    ring
  have hsin : Real.sin (((2 * (k : ℝ) + 1) * Real.pi) / 2) = Real.cos ((k : ℝ) * Real.pi) := by
    rw [harg, Real.sin_add, Real.sin_pi_div_two, Real.cos_pi_div_two, Real.sin_int_mul_pi]
    ring
  have hcos : Real.cos (((2 * (k : ℝ) + 1) * Real.pi) / 2) = 0 := by
    rw [harg, Real.cos_add, Real.sin_pi_div_two, Real.cos_pi_div_two, Real.sin_int_mul_pi]
    ring
  have hne : Real.sin (((2 * (k : ℝ) + 1) * Real.pi) / 2) ≠ 0 := by
    rw [hsin]
    intro h
    have habs := Real.abs_cos_int_mul_pi k
    rw [h] at habs
    norm_num at habs
  unfold dEntry
  rw [if_neg hne, if_pos hcos]

/-- C2: when β is an exact multiple of 2π the built table satisfies
`value(j,m,n) = δ_{m,n}` for every valid `(j,m,n)`, and when β is an odd
multiple of π it satisfies `value(j,m,n) = (-1)^{j-m}` when `n = -m` and `0`
otherwise — the builder substitutes these limiting values explicitly, never
producing an indeterminate result. -/
theorem C2_singular_angles :
    ∀ L k j m n : ℤ, 0 ≤ L → j ≤ L → |m| ≤ j → |n| ≤ j →
      (∃ t : dmatrix, build L (2 * Real.pi * k) = Except.ok t ∧
        t.djmn j m n = Except.ok (if m = n then 1 else 0)) ∧
      (∃ t : dmatrix, build L ((2 * (k : ℝ) + 1) * Real.pi) = Except.ok t ∧
        t.djmn j m n = Except.ok (if n = -m then (-1 : ℝ) ^ (j - m) else 0)) := by
  intro L k j m n hL hj hm hn
  have hjt : j ≤ ((L.toNat : ℕ) : ℤ) := by omega
  constructor
  · refine ⟨dmatrixOf L.toNat (2 * Real.pi * k), build_ok hL _, ?_⟩
    rw [djmn_ok _ hjt hm hn, dmatrixOf_table, dEntry_beta_two_pi_mul]
  · refine ⟨dmatrixOf L.toNat ((2 * (k : ℝ) + 1) * Real.pi), build_ok hL _, ?_⟩
    rw [djmn_ok _ hjt hm hn, dmatrixOf_table, dEntry_beta_odd_pi, wsign_eq_zpow]

/-- C2 witness at a concrete instance. -/
theorem C2_singular_angles_witness :
    (0 : ℤ) ≤ 2 ∧ (1 : ℤ) ≤ 2 ∧ |(1 : ℤ)| ≤ 1 ∧ |(-1 : ℤ)| ≤ 1 ∧
      (∃ t : dmatrix, build 2 (2 * Real.pi * ((1 : ℤ) : ℝ)) = Except.ok t ∧
        t.djmn 1 1 (-1) = Except.ok (if (1 : ℤ) = -1 then 1 else 0)) ∧
      (∃ t : dmatrix, build 2 ((2 * ((1 : ℤ) : ℝ) + 1) * Real.pi) = Except.ok t ∧
        t.djmn 1 1 (-1) = Except.ok (if (-1 : ℤ) = -1 then (-1 : ℝ) ^ ((1 : ℤ) - 1) else 0)) := by
  have h := C2_singular_angles 2 1 1 1 (-1) (by norm_num) (by norm_num) (by norm_num)
    (by norm_num)
  exact ⟨by norm_num, by norm_num, by norm_num, by norm_num, h.1, h.2⟩

/-- Transposition symmetry of the entries: `d^j_{m,n} = (-1)^{m-n} d^j_{n,m}`,
exactly. -/
lemma dEntry_transpose {j m n : ℤ} (hm : |m| ≤ j) (hn : |n| ≤ j) (β : ℝ) :
    dEntry j m n β = wsign (m - n) * dEntry j n m β := by
  rw [dEntry_eq_wd hm hn, dEntry_eq_wd hn hm]
  obtain ⟨hm1, hm2⟩ := abs_le.mp hm
  obtain ⟨hn1, hn2⟩ := abs_le.mp hn
  rw [wd_transpose j.toNat ((j + n).toNat) ((j + m).toNat) β]
  have hpar : (((j + n).toNat : ℕ) : ℤ) + (((j + m).toNat : ℕ) : ℤ)
      = (m - n) + ((j + n) + (j + n)) := by omega
  rw [hpar, wsign_add, wsign_even ⟨j + n, rfl⟩, mul_one]

/-- Reflection symmetry of the entries: `d^j_{m,n} = d^j_{-n,-m}`, exactly. -/
lemma dEntry_reflect {j m n : ℤ} (hm : |m| ≤ j) (hn : |n| ≤ j) (β : ℝ) :
    dEntry j m n β = dEntry j (-n) (-m) β := by
  rw [dEntry_eq_wd hm hn,
    dEntry_eq_wd (show |(-n : ℤ)| ≤ j from by rwa [abs_neg]) (show |(-m : ℤ)| ≤ j from by
      rwa [abs_neg]) β]
  obtain ⟨hm1, hm2⟩ := abs_le.mp hm
  obtain ⟨hn1, hn2⟩ := abs_le.mp hn
  have h1 : (j + -n).toNat = 2 * j.toNat - (j + n).toNat := by omega
  have h2 : (j + -m).toNat = 2 * j.toNat - (j + m).toNat := by omega
  rw [h1, h2]
  exact (wd_reflect j.toNat ((j + m).toNat) ((j + n).toNat) (by omega) (by omega) β).symm

/-- Row normalisation of the entries in the original index ranges. -/
lemma dEntry_row_norm {j m : ℤ} (hm : |m| ≤ j) (β : ℝ) :
    ∑ n in Finset.Icc (-j) j, (dEntry j m n β) ^ 2 = 1 := by
  have hj : 0 ≤ j := (abs_nonneg m).trans hm
  have hstep : ∑ n in Finset.Icc (-j) j, (dEntry j m n β) ^ 2
      = ∑ q in Finset.range (2 * j.toNat + 1), (wd j.toNat ((j + m).toNat) q β) ^ 2 := by
    apply Finset.sum_nbij' (fun n => (j + n).toNat) (fun q => (q : ℤ) - j)
    · intro n hn
      simp only [Finset.mem_Icc] at hn
      simp only [Finset.mem_range]
      omega
    · intro q hq
      simp only [Finset.mem_range] at hq
      simp only [Finset.mem_Icc]
      omega
    · intro n hn
      simp only [Finset.mem_Icc] at hn
      omega
    · intro q hq
      simp only [Finset.mem_range] at hq
      omega
    · intro n hn
      simp only [Finset.mem_Icc] at hn
      rw [dEntry_eq_wd hm (show |n| ≤ j from abs_le.mpr ⟨hn.1, hn.2⟩) β]
  rw [hstep]
  exact wd_row_norm j.toNat ((j + m).toNat) (by
    obtain ⟨hm1, hm2⟩ := abs_le.mp hm
    omega) β

lemma abs_le_one_of_sq_le_one {x : ℝ} (h : x ^ 2 ≤ 1) : |x| ≤ 1 := by
  nlinarith [abs_nonneg x, sq_abs x]

/-- Every valid entry is bounded by 1 in absolute value, exactly. -/
lemma dEntry_abs_le_one {j m n : ℤ} (hm : |m| ≤ j) (hn : |n| ≤ j) (β : ℝ) :
    |dEntry j m n β| ≤ 1 := by
  have hrow := dEntry_row_norm hm β
  have hjn : n ∈ Finset.Icc (-j) j := by
    simp only [Finset.mem_Icc]
    obtain ⟨hn1, hn2⟩ := abs_le.mp hn
    exact ⟨hn1, hn2⟩
  have hle : (dEntry j m n β) ^ 2 ≤ ∑ k in Finset.Icc (-j) j, (dEntry j m k β) ^ 2 :=
    Finset.single_le_sum (f := fun k => (dEntry j m k β) ^ 2)
      (fun k _ => sq_nonneg (dEntry j m k β)) hjn
  rw [hrow] at hle
  exact abs_le_one_of_sq_le_one hle

lemma build_inv {L : ℤ} {β : ℝ} {t : dmatrix} (h : build L β = Except.ok t) :
    0 ≤ L ∧ t = dmatrixOf L.toNat β := by
  unfold build at h
  by_cases hL : L < 0
  · rw [if_pos hL] at h
    exact absurd h (by simp)
  · rw [if_neg hL] at h
    exact ⟨by omega, (Except.ok.inj h).symm⟩

/-- C5: for every built table and every valid `(j,m,n)`, the symmetry
identities `value(j,m,n) = (-1)^(m-n) value(j,n,m)` and
`value(j,m,n) = value(j,-n,-m)` hold within `1e-9` for any β. -/
theorem C5_symmetries :
    ∀ (L : ℤ) (β : ℝ) (t : dmatrix), build L β = Except.ok t →
      ∀ j m n : ℤ, j ≤ (t.max_L : ℤ) → |m| ≤ j → |n| ≤ j →
        |t.table j m n - (-1 : ℝ) ^ (m - n) * t.table j n m| ≤ 1e-9 ∧
        |t.table j m n - t.table j (-n) (-m)| ≤ 1e-9 := by
  intro L β t ht j m n hj hm hn
  obtain ⟨hL, rfl⟩ := build_inv ht
  constructor
  · rw [dmatrixOf_table, dmatrixOf_table, ← wsign_eq_zpow, ← dEntry_transpose hm hn]
    norm_num
  · rw [dmatrixOf_table, dmatrixOf_table, ← dEntry_reflect hm hn]
    norm_num

/-- C5 witness at a concrete instance. -/
theorem C5_symmetries_witness :
    build 1 0 = Except.ok (dmatrixOf (1 : ℤ).toNat 0) ∧
      (|(dmatrixOf (1 : ℤ).toNat 0).table 1 0 1
          - (-1 : ℝ) ^ ((0 : ℤ) - 1) * (dmatrixOf (1 : ℤ).toNat 0).table 1 1 0| ≤ 1e-9 ∧
        |(dmatrixOf (1 : ℤ).toNat 0).table 1 0 1
          - (dmatrixOf (1 : ℤ).toNat 0).table 1 (-1) (-0)| ≤ 1e-9) :=
  ⟨build_ok (by norm_num) 0,
    C5_symmetries 1 0 _ (build_ok (by norm_num) 0) 1 0 1
      (by simp only [dmatrixOf_max_L]; omega) (by norm_num) (by norm_num)⟩

/-- C6: for every built table, every `j ≤ L_max` and every `m` with
`|m| ≤ j`, the row of the j-block is normalised:
`Σ_{n=-j..j} value(j,m,n)² = 1` within `1e-6`, for any β. -/
theorem C6_unitarity :
    ∀ (L : ℤ) (β : ℝ) (t : dmatrix), build L β = Except.ok t →
      ∀ j m : ℤ, j ≤ (t.max_L : ℤ) → |m| ≤ j →
        |(∑ n in Finset.Icc (-j) j, (t.table j m n) ^ 2) - 1| ≤ 1e-6 := by
  intro L β t ht j m hj hm
  obtain ⟨hL, rfl⟩ := build_inv ht
  simp only [dmatrixOf_table]
  rw [dEntry_row_norm hm β]
  norm_num

/-- C6 witness at a concrete instance. -/
theorem C6_unitarity_witness :
    build 2 1 = Except.ok (dmatrixOf (2 : ℤ).toNat 1) ∧
      |(∑ n in Finset.Icc (-(2 : ℤ)) 2, ((dmatrixOf (2 : ℤ).toNat 1).table 2 1 n) ^ 2) - 1|
        ≤ 1e-6 :=
  ⟨build_ok (by norm_num) 1,
    C6_unitarity 2 1 _ (build_ok (by norm_num) 1) 2 1
      (by simp only [dmatrixOf_max_L]; omega) (by norm_num)⟩

/-- C7: every entry stored in a built table is bounded:
`|value(j,m,n)| ≤ 1 + 1e-9` for all valid `(j,m,n)` and any β. -/
theorem C7_bounded :
    ∀ (L : ℤ) (β : ℝ) (t : dmatrix), build L β = Except.ok t →
      ∀ j m n : ℤ, j ≤ (t.max_L : ℤ) → |m| ≤ j → |n| ≤ j →
        |t.table j m n| ≤ 1 + 1e-9 := by
  intro L β t ht j m n hj hm hn
  obtain ⟨hL, rfl⟩ := build_inv ht
  simp only [dmatrixOf_table]
  have h := dEntry_abs_le_one hm hn β
  have h9 : (0 : ℝ) ≤ 1e-9 := by norm_num
  linarith

/-- C7 witness at a concrete instance. -/
theorem C7_bounded_witness :
    build 3 2 = Except.ok (dmatrixOf (3 : ℤ).toNat 2) ∧
      |(dmatrixOf (3 : ℤ).toNat 2).table 3 (-2) 1| ≤ 1 + 1e-9 :=
  ⟨build_ok (by norm_num) 2,
    C7_bounded 3 2 _ (build_ok (by norm_num) 2) 3 (-2) 1
      (by simp only [dmatrixOf_max_L]; omega) (by norm_num) (by norm_num)⟩

/-- C4: for a fixed β, tables built with different ceilings agree on their
shared entries; in particular `build(4, 1).value(2,-2,n)` equals
`build(2, 1).value(2,-2,n)` for every `|n| ≤ 2`. -/
theorem C4_consistency :
    (∀ (L₁ L₂ j m n : ℤ) (β : ℝ) (t₁ t₂ : dmatrix),
      build L₁ β = Except.ok t₁ → build L₂ β = Except.ok t₂ →
      j ≤ (t₁.max_L : ℤ) → j ≤ (t₂.max_L : ℤ) → |m| ≤ j → |n| ≤ j →
      t₁.djmn j m n = t₂.djmn j m n) ∧
    (∀ n : ℤ, |n| ≤ 2 →
      ∀ t₁ t₂ : dmatrix, build 4 1 = Except.ok t₁ → build 2 1 = Except.ok t₂ →
        t₁.djmn 2 (-2) n = t₂.djmn 2 (-2) n) := by
  have general : ∀ (L₁ L₂ j m n : ℤ) (β : ℝ) (t₁ t₂ : dmatrix),
      build L₁ β = Except.ok t₁ → build L₂ β = Except.ok t₂ →
      j ≤ (t₁.max_L : ℤ) → j ≤ (t₂.max_L : ℤ) → |m| ≤ j → |n| ≤ j →
      t₁.djmn j m n = t₂.djmn j m n := by
    intro L₁ L₂ j m n β t₁ t₂ h₁ h₂ hj₁ hj₂ hm hn
    obtain ⟨_, rfl⟩ := build_inv h₁
    obtain ⟨_, rfl⟩ := build_inv h₂
    rw [djmn_ok _ hj₁ hm hn, djmn_ok _ hj₂ hm hn]
    simp only [dmatrixOf_table]
  refine ⟨general, ?_⟩
  intro n hn t₁ t₂ h₁ h₂
  have hj₁ : (2 : ℤ) ≤ (t₁.max_L : ℤ) := by
    obtain ⟨_, rfl⟩ := build_inv h₁
    simp only [dmatrixOf_max_L]
    omega
  have hj₂ : (2 : ℤ) ≤ (t₂.max_L : ℤ) := by
    obtain ⟨_, rfl⟩ := build_inv h₂
    simp only [dmatrixOf_max_L]
    omega
  exact general 4 2 2 (-2) n 1 t₁ t₂ h₁ h₂ hj₁ hj₂ (by norm_num) hn

/-- C4 witness at a concrete instance. -/
theorem C4_consistency_witness :
    build 4 1 = Except.ok (dmatrixOf (4 : ℤ).toNat 1) ∧
      build 2 1 = Except.ok (dmatrixOf (2 : ℤ).toNat 1) ∧
      (dmatrixOf (4 : ℤ).toNat 1).djmn 2 (-2) 1 = (dmatrixOf (2 : ℤ).toNat 1).djmn 2 (-2) 1 :=
  ⟨build_ok (by norm_num) 1, build_ok (by norm_num) 1,
    C4_consistency.2 1 (by norm_num) _ _ (build_ok (by norm_num) 1) (build_ok (by norm_num) 1)⟩

/-- C8: `build(L_max, β)` fails with `InvalidDomain` exactly when `L_max < 0`
and never fails for any finite β; `value(j,m,n)` fails with `IndexOutOfRange`
exactly when `j > L_max` or `|m| > j` or `|n| > j`; in every failure case an
explicit error is reported and no junk or clamped value is returned. -/
theorem C8_error_handling :
    (∀ (L : ℤ) (β : ℝ),
      (build L β = Except.error dmatrixError.invalidDomain ↔ L < 0) ∧
      (0 ≤ L → build L β = Except.ok (dmatrixOf L.toNat β))) ∧
    (∀ (t : dmatrix) (j m n : ℤ),
      (t.djmn j m n = Except.error dmatrixError.indexOutOfRange
        ↔ ((t.max_L : ℤ) < j ∨ j < |m| ∨ j < |n|)) ∧
      (j ≤ (t.max_L : ℤ) → |m| ≤ j → |n| ≤ j →
        t.djmn j m n = Except.ok (t.table j m n))) := by
  constructor
  · intro L β
    constructor
    · constructor
      · intro h
        by_contra hL
        rw [build_ok (by omega) β] at h
        exact absurd h (by simp)
      · intro h
        unfold build
        rw [if_pos h]
    · intro h
      exact build_ok h β
  · intro t j m n
    constructor
    · constructor
      · intro h
        by_contra hcon
        push_neg at hcon
        rw [djmn_ok t hcon.1 hcon.2.1 hcon.2.2] at h
        exact absurd h (by simp)
      · intro h
        unfold dmatrix.djmn
        rw [if_pos h]
    · exact fun hj hm hn => djmn_ok t hj hm hn

/-- C8 witness at concrete instances. -/
theorem C8_error_handling_witness :
    build (-1) 0 = Except.error dmatrixError.invalidDomain ∧
      (dmatrixOf 3 0).djmn 5 0 0 = Except.error dmatrixError.indexOutOfRange ∧
      (dmatrixOf 3 0).djmn 1 0 0 = Except.ok ((dmatrixOf 3 0).table 1 0 0) := by
  refine ⟨?_, ?_, ?_⟩
  · exact (C8_error_handling.1 (-1) 0).1.mpr (by norm_num)
  · exact (C8_error_handling.2 (dmatrixOf 3 0) 5 0 0).1.mpr
      (Or.inl (by simp only [dmatrixOf_max_L]; omega))
  · exact (C8_error_handling.2 (dmatrixOf 3 0) 1 0 0).2
      (by simp only [dmatrixOf_max_L]; omega) (by norm_num) (by norm_num)

lemma sum_Icc04 (f : ℤ → ℝ) :
    ∑ s in Finset.Icc (0 : ℤ) 4, f s = f 0 + f 1 + f 2 + f 3 + f 4 := by
  rw [show (4 : ℤ) = 3 + 1 from by norm_num,
    sum_Icc_top f 0 3 (by norm_num),
    show (3 : ℤ) = 2 + 1 from by norm_num,
    sum_Icc_top f 0 2 (by norm_num),
    show (2 : ℤ) = 1 + 1 from by norm_num,
    sum_Icc_top f 0 1 (by norm_num),
    show (1 : ℤ) = 0 + 1 from by norm_num,
    sum_Icc_top f 0 0 (by norm_num),
    Finset.Icc_self, Finset.sum_singleton]

lemma rfac_eval_zero : rfac 0 = 1 := by
  rw [rfac_of_nonneg le_rfl]
  norm_num

lemma rfac_eval_one : rfac 1 = 1 := by
  rw [rfac_of_nonneg (by norm_num)]
  norm_num [Nat.factorial]

lemma rfac_eval_two : rfac 2 = 2⁻¹ := by
  rw [rfac_of_nonneg (by norm_num)]
  norm_num [Nat.factorial]

lemma rfac_eval_three : rfac 3 = 6⁻¹ := by
  rw [rfac_of_nonneg (by norm_num)]
  norm_num [Nat.factorial]

lemma rfac_eval_four : rfac 4 = 24⁻¹ := by
  rw [rfac_of_nonneg (by norm_num)]
  norm_num [Nat.factorial]

/-- The entry `d^2_{2,1}` in shifted indexing (`p = 4, q = 3`): the
binomial sum collapses to a single term `-2 cos³(β/2) sin(β/2)`. -/
lemma wd_243 (x y : ℝ) :
    ∑ s in Finset.Icc (0 : ℤ) (2 * (2 : ℕ)), wdTerm 2 4 3 s x y = -(6⁻¹) * (x ^ 3 * y) := by
  rw [show (2 : ℤ) * ((2 : ℕ) : ℤ) = 4 from by norm_num]
  rw [sum_Icc04]
  have t1 : wdTerm 2 4 3 1 x y = 0 := by
    apply wdTerm_support
    right; right; right
    norm_num
  have t2 : wdTerm 2 4 3 2 x y = 0 := by
    apply wdTerm_support
    right; right; right
    norm_num
  have t3 : wdTerm 2 4 3 3 x y = 0 := by
    apply wdTerm_support
    right; right; right
    norm_num
  have t4 : wdTerm 2 4 3 4 x y = 0 := by
    apply wdTerm_support
    right; right; right
    norm_num
  rw [t1, t2, t3, t4]
  unfold wdTerm
  norm_num [Int.toNat_ofNat]
  rw [show Int.toNat 3 = 3 from by decide,
    wsign_odd_case ⟨3, by norm_num⟩, rfac_eval_zero, rfac_eval_one, rfac_eval_three]
  ring

/-- The entry `d^2_{2,0}` in shifted indexing (`p = 4, q = 2`): the
binomial sum collapses to `cos²(β/2) sin²(β/2) / 4`. -/
lemma wd_242 (x y : ℝ) :
    ∑ s in Finset.Icc (0 : ℤ) (2 * (2 : ℕ)), wdTerm 2 4 2 s x y = 4⁻¹ * (x ^ 2 * y ^ 2) := by
  rw [show (2 : ℤ) * ((2 : ℕ) : ℤ) = 4 from by norm_num]
  rw [sum_Icc04]
  have t1 : wdTerm 2 4 2 1 x y = 0 := by
    apply wdTerm_support
    right; right; right
    norm_num
  have t2 : wdTerm 2 4 2 2 x y = 0 := by
    apply wdTerm_support
    right; right; right
    norm_num
  have t3 : wdTerm 2 4 2 3 x y = 0 := by
    apply wdTerm_support
    right; right; right
    norm_num
  have t4 : wdTerm 2 4 2 4 x y = 0 := by
    apply wdTerm_support
    right; right; right
    norm_num
  rw [t1, t2, t3, t4]
  unfold wdTerm
  norm_num [Int.toNat_ofNat]
  rw [show Int.toNat 2 = 2 from by decide,
    wsign_even ⟨3, by norm_num⟩, rfac_eval_zero, rfac_eval_two]
  ring

/-- The exact closed form `d^2_{2,1}(β) = -(1+cos β) sin β / 2` for every
real β, including the singular branches. -/
lemma dEntry_221 (β : ℝ) :
    dEntry 2 2 1 β = -(1 + Real.cos β) * Real.sin β / 2 := by
  have hcosd : Real.cos β = 2 * Real.cos (β / 2) ^ 2 - 1 := by
    have h := Real.cos_two_mul (β / 2)
    rw [show 2 * (β / 2) = β from by ring] at h
    exact h
  have hsind : Real.sin β = 2 * Real.sin (β / 2) * Real.cos (β / 2) := by
    have h := Real.sin_two_mul (β / 2)
    rw [show 2 * (β / 2) = β from by ring] at h
    exact h
  unfold dEntry
  split
  case isTrue hs =>
    rw [if_neg (show (2 : ℤ) ≠ 1 from by norm_num), hsind, hs]
    ring
  case isFalse hs =>
    split
    case isTrue hc =>
      rw [if_neg (show (1 : ℤ) ≠ -2 from by norm_num), hsind, hc]
      ring
    case isFalse hc =>
      rw [show (2 : ℤ).toNat = 2 from by decide, show ((2 : ℤ) + 2).toNat = 4 from by decide,
        show ((2 : ℤ) + 1).toNat = 3 from by decide]
      unfold wd
      rw [wd_243]
      have hK : wdKfac 2 4 3 = 12 := by
        unfold wdKfac
        norm_num [Nat.factorial]
        rw [show (144 : ℝ) = 12 ^ 2 from by norm_num, Real.sqrt_sq (by norm_num)]
      rw [hK, hcosd, hsind]
      ring

/-- The exact special value `d^2_{2,0}(π/2) = √6 / 4`. -/
lemma dEntry_220_pi_half : dEntry 2 2 0 (Real.pi / 2) = Real.sqrt 6 / 4 := by
  have harg : Real.pi / 2 / 2 = Real.pi / 4 := by ring
  have hsin : Real.sin (Real.pi / 2 / 2) = Real.sqrt 2 / 2 := by
    rw [harg, Real.sin_pi_div_four]
  have hcos : Real.cos (Real.pi / 2 / 2) = Real.sqrt 2 / 2 := by
    rw [harg, Real.cos_pi_div_four]
  have h2pos : (0 : ℝ) < Real.sqrt 2 := Real.sqrt_pos.mpr (by norm_num)
  unfold dEntry
  rw [if_neg (show Real.sin (Real.pi / 2 / 2) ≠ 0 from by
      rw [hsin]
      exact ne_of_gt (by positivity)),
    if_neg (show Real.cos (Real.pi / 2 / 2) ≠ 0 from by
      rw [hcos]
      exact ne_of_gt (by positivity))]
  rw [show (2 : ℤ).toNat = 2 from by decide, show ((2 : ℤ) + 2).toNat = 4 from by decide,
    show ((2 : ℤ) + 0).toNat = 2 from by decide]
  unfold wd
  rw [wd_242, hcos, hsin]
  have hK : wdKfac 2 4 2 = Real.sqrt 96 := by
    unfold wdKfac
    norm_num [Nat.factorial]
  have h96 : Real.sqrt 96 = 4 * Real.sqrt 6 := by
    rw [show (96 : ℝ) = 4 ^ 2 * 6 from by norm_num, Real.sqrt_mul (by positivity),
      Real.sqrt_sq (by norm_num)]
  have hs2 : (Real.sqrt 2 / 2) ^ 2 = 1 / 2 := by
    rw [div_pow, Real.sq_sqrt (by norm_num)]
    norm_num
  rw [hK, h96, hs2]
  ring

/-- C3: for every rotation angle β (in particular the ten sampled values
β = 0, 1, ..., 9), a table built with `L_max ≥ 2` satisfies
`value(2,2,1) = -(1+cos β) sin β / 2` within `1e-4`; additionally at
β = π/2 it satisfies `value(2,2,0) = √6/4` within `1e-4`. -/
theorem C3_closed_forms :
    (∀ (β : ℝ) (L : ℤ), 2 ≤ L →
      ∃ t : dmatrix, build L β = Except.ok t ∧
        t.djmn 2 2 1 = Except.ok (t.table 2 2 1) ∧
        |t.table 2 2 1 - (-(1 + Real.cos β) * Real.sin β / 2)| < 1e-4) ∧
    (∀ L : ℤ, 2 ≤ L →
      ∃ t : dmatrix, build L (Real.pi / 2) = Except.ok t ∧
        t.djmn 2 2 0 = Except.ok (t.table 2 2 0) ∧
        |t.table 2 2 0 - Real.sqrt 6 / 4| < 1e-4) := by
  constructor
  · intro β L hL
    refine ⟨dmatrixOf L.toNat β, build_ok (by omega) β, ?_, ?_⟩
    · exact djmn_ok _ (by simp only [dmatrixOf_max_L]; omega) (by norm_num) (by norm_num)
    · rw [dmatrixOf_table, dEntry_221]
      norm_num
  · intro L hL
    refine ⟨dmatrixOf L.toNat (Real.pi / 2), build_ok (by omega) _, ?_, ?_⟩
    · exact djmn_ok _ (by simp only [dmatrixOf_max_L]; omega) (by norm_num) (by norm_num)
    · rw [dmatrixOf_table, dEntry_220_pi_half]
      norm_num

lemma sc16 : (0.0624585 : ℝ) ≤ Real.sin 16⁻¹ ∧ Real.sin 16⁻¹ ≤ 0.0624602 ∧
    (0.998046 : ℝ) ≤ Real.cos 16⁻¹ ∧ Real.cos 16⁻¹ ≤ 0.9980477 := by
  have hs := Real.sin_bound (x := 16⁻¹) (abs_le.mpr ⟨by norm_num, by norm_num⟩)
  have hc := Real.cos_bound (x := 16⁻¹) (abs_le.mpr ⟨by norm_num, by norm_num⟩)
  rw [abs_of_pos (show (0 : ℝ) < 16⁻¹ from by norm_num)] at hs hc
  rw [abs_le] at hs hc
  obtain ⟨hs1, hs2⟩ := hs
  obtain ⟨hc1, hc2⟩ := hc
  norm_num at hs1 hs2 hc1 hc2
  refine ⟨by linarith, by linarith, by linarith, by linarith⟩

lemma double_step {x sl sh cl ch : ℝ} (hsl : sl ≤ Real.sin x) (hsh : Real.sin x ≤ sh)
    (hcl : cl ≤ Real.cos x) (hch : Real.cos x ≤ ch) (hsl0 : 0 ≤ sl) (hcl0 : 0 ≤ cl) :
    2 * sl * cl ≤ Real.sin (2 * x) ∧ Real.sin (2 * x) ≤ 2 * sh * ch ∧
    1 - 2 * sh ^ 2 ≤ Real.cos (2 * x) ∧ Real.cos (2 * x) ≤ 1 - 2 * sl ^ 2 := by
  have hs2 := Real.sin_two_mul x
  have hc2 := Real.cos_two_mul x
  have hpyth := Real.sin_sq_add_cos_sq x
  refine ⟨?_, ?_, ?_, ?_⟩ <;>
    nlinarith [hsl, hsh, hcl, hch, hsl0, hcl0, hs2, hc2, hpyth]

lemma sc8 : (0.1246729 : ℝ) ≤ Real.sin 8⁻¹ ∧ Real.sin 8⁻¹ ≤ 0.1246766 ∧
    (0.9921974 : ℝ) ≤ Real.cos 8⁻¹ ∧ Real.cos 8⁻¹ ≤ 0.9921979 := by
  obtain ⟨h1, h2, h3, h4⟩ := sc16
  have h := double_step h1 h2 h3 h4 (by norm_num) (by norm_num)
  rw [show (2 : ℝ) * 16⁻¹ = 8⁻¹ from by norm_num] at h
  obtain ⟨g1, g2, g3, g4⟩ := h
  norm_num at g1 g2 g3 g4
  exact ⟨by linarith, by linarith, by linarith, by linarith⟩

lemma sc4 : (0.2474002 : ℝ) ≤ Real.sin 4⁻¹ ∧ Real.sin 4⁻¹ ≤ 0.2474078 ∧
    (0.9689114 : ℝ) ≤ Real.cos 4⁻¹ ∧ Real.cos 4⁻¹ ≤ 0.9689134 := by
  obtain ⟨h1, h2, h3, h4⟩ := sc8
  have h := double_step h1 h2 h3 h4 (by norm_num) (by norm_num)
  rw [show (2 : ℝ) * 8⁻¹ = 4⁻¹ from by norm_num] at h
  obtain ⟨g1, g2, g3, g4⟩ := h
  norm_num at g1 g2 g3 g4
  exact ⟨by linarith, by linarith, by linarith, by linarith⟩

lemma sc_half : (0.4794177 : ℝ) ≤ Real.sin (1 / 2) ∧ Real.sin (1 / 2) ≤ 0.4794335 ∧
    (0.8775787 : ℝ) ≤ Real.cos (1 / 2) ∧ Real.cos (1 / 2) ≤ 0.8775863 := by
  obtain ⟨h1, h2, h3, h4⟩ := sc4
  have h := double_step h1 h2 h3 h4 (by norm_num) (by norm_num)
  rw [show (2 : ℝ) * 4⁻¹ = 1 / 2 from by norm_num] at h
  obtain ⟨g1, g2, g3, g4⟩ := h
  norm_num at g1 g2 g3 g4
  exact ⟨by linarith, by linarith, by linarith, by linarith⟩

/-- The row `p = 0` of the `j = 2` block: each column is a single monomial
of the binomial sum. -/
lemma wd_200 (x y : ℝ) :
    ∑ s in Finset.Icc (0 : ℤ) (2 * (2 : ℕ)), wdTerm 2 0 0 s x y = 24⁻¹ * x ^ 4 := by
  rw [show (2 : ℤ) * ((2 : ℕ) : ℤ) = 4 from by norm_num, sum_Icc04]
  have t1 : wdTerm 2 0 0 1 x y = 0 := by
    apply wdTerm_support; right; right; left; norm_num
  have t2 : wdTerm 2 0 0 2 x y = 0 := by
    apply wdTerm_support; right; right; left; norm_num
  have t3 : wdTerm 2 0 0 3 x y = 0 := by
    apply wdTerm_support; right; right; left; norm_num
  have t4 : wdTerm 2 0 0 4 x y = 0 := by
    apply wdTerm_support; right; right; left; norm_num
  rw [t1, t2, t3, t4]
  unfold wdTerm
  norm_num [Int.toNat_ofNat]
  rw [show Int.toNat 4 = 4 from by decide, wsign_even ⟨0, by norm_num⟩,
    rfac_eval_zero, rfac_eval_four]
  ring

lemma wd_201 (x y : ℝ) :
    ∑ s in Finset.Icc (0 : ℤ) (2 * (2 : ℕ)), wdTerm 2 0 1 s x y = 6⁻¹ * (x ^ 3 * y) := by
  rw [show (2 : ℤ) * ((2 : ℕ) : ℤ) = 4 from by norm_num, sum_Icc04]
  have t0 : wdTerm 2 0 1 0 x y = 0 := by
    apply wdTerm_support; right; left; norm_num
  have t2 : wdTerm 2 0 1 2 x y = 0 := by
    apply wdTerm_support; right; right; left; norm_num
  have t3 : wdTerm 2 0 1 3 x y = 0 := by
    apply wdTerm_support; right; right; left; norm_num
  have t4 : wdTerm 2 0 1 4 x y = 0 := by
    apply wdTerm_support; right; right; left; norm_num
  rw [t0, t2, t3, t4]
  unfold wdTerm
  norm_num [Int.toNat_ofNat]
  rw [show Int.toNat 3 = 3 from by decide, wsign_even ⟨1, by norm_num⟩,
    rfac_eval_zero, rfac_eval_one, rfac_eval_three]
  ring

lemma wd_202 (x y : ℝ) :
    ∑ s in Finset.Icc (0 : ℤ) (2 * (2 : ℕ)), wdTerm 2 0 2 s x y = 4⁻¹ * (x ^ 2 * y ^ 2) := by
  rw [show (2 : ℤ) * ((2 : ℕ) : ℤ) = 4 from by norm_num, sum_Icc04]
  have t0 : wdTerm 2 0 2 0 x y = 0 := by
    apply wdTerm_support; right; left; norm_num
  have t1 : wdTerm 2 0 2 1 x y = 0 := by
    apply wdTerm_support; right; left; norm_num
  have t3 : wdTerm 2 0 2 3 x y = 0 := by
    apply wdTerm_support; right; right; left; norm_num
  have t4 : wdTerm 2 0 2 4 x y = 0 := by
    apply wdTerm_support; right; right; left; norm_num
  rw [t0, t1, t3, t4]
  unfold wdTerm
  norm_num [Int.toNat_ofNat]
  rw [show Int.toNat 2 = 2 from by decide, wsign_even ⟨2, by norm_num⟩,
    rfac_eval_zero, rfac_eval_two]
  ring

lemma wd_203 (x y : ℝ) :
    ∑ s in Finset.Icc (0 : ℤ) (2 * (2 : ℕ)), wdTerm 2 0 3 s x y = 6⁻¹ * (x * y ^ 3) := by
  rw [show (2 : ℤ) * ((2 : ℕ) : ℤ) = 4 from by norm_num, sum_Icc04]
  have t0 : wdTerm 2 0 3 0 x y = 0 := by
    apply wdTerm_support; right; left; norm_num
  have t1 : wdTerm 2 0 3 1 x y = 0 := by
    apply wdTerm_support; right; left; norm_num
  have t2 : wdTerm 2 0 3 2 x y = 0 := by
    apply wdTerm_support; right; left; norm_num
  have t4 : wdTerm 2 0 3 4 x y = 0 := by
    apply wdTerm_support; right; right; left; norm_num
  rw [t0, t1, t2, t4]
  unfold wdTerm
  norm_num [Int.toNat_ofNat]
  rw [show Int.toNat 3 = 3 from by decide, wsign_even ⟨3, by norm_num⟩,
    rfac_eval_zero, rfac_eval_one, rfac_eval_three]
  ring

lemma wd_204 (x y : ℝ) :
    ∑ s in Finset.Icc (0 : ℤ) (2 * (2 : ℕ)), wdTerm 2 0 4 s x y = 24⁻¹ * y ^ 4 := by
  rw [show (2 : ℤ) * ((2 : ℕ) : ℤ) = 4 from by norm_num, sum_Icc04]
  have t0 : wdTerm 2 0 4 0 x y = 0 := by
    apply wdTerm_support; right; left; norm_num
  have t1 : wdTerm 2 0 4 1 x y = 0 := by
    apply wdTerm_support; right; left; norm_num
  have t2 : wdTerm 2 0 4 2 x y = 0 := by
    apply wdTerm_support; right; left; norm_num
  have t3 : wdTerm 2 0 4 3 x y = 0 := by
    apply wdTerm_support; right; left; norm_num
  rw [t0, t1, t2, t3]
  unfold wdTerm
  norm_num [Int.toNat_ofNat]
  rw [show Int.toNat 4 = 4 from by decide, wsign_even ⟨4, by norm_num⟩,
    rfac_eval_zero, rfac_eval_four]
  ring

lemma wdKfac_200 : wdKfac 2 0 0 = 24 := by
  unfold wdKfac
  norm_num [Nat.factorial]
  rw [show (576 : ℝ) = 24 ^ 2 from by norm_num, Real.sqrt_sq (by norm_num)]

lemma wdKfac_201 : wdKfac 2 0 1 = 12 := by
  unfold wdKfac
  norm_num [Nat.factorial]
  rw [show (144 : ℝ) = 12 ^ 2 from by norm_num, Real.sqrt_sq (by norm_num)]

lemma wdKfac_202 : wdKfac 2 0 2 = Real.sqrt 96 := by
  unfold wdKfac
  norm_num [Nat.factorial]

lemma wdKfac_203 : wdKfac 2 0 3 = 12 := by
  unfold wdKfac
  norm_num [Nat.factorial]
  rw [show (144 : ℝ) = 12 ^ 2 from by norm_num, Real.sqrt_sq (by norm_num)]

lemma wdKfac_204 : wdKfac 2 0 4 = 24 := by
  unfold wdKfac
  norm_num [Nat.factorial]
  rw [show (576 : ℝ) = 24 ^ 2 from by norm_num, Real.sqrt_sq (by norm_num)]

/-- The five entries of the row `(j, m) = (2, -2)` at β = 1, in closed
form. -/
lemma dEntry_C1_raw :
    dEntry 2 (-2) (-2) 1 = Real.cos (1 / 2) ^ 4 ∧
    dEntry 2 (-2) (-1) 1 = 2 * (Real.cos (1 / 2) ^ 3 * Real.sin (1 / 2)) ∧
    dEntry 2 (-2) 0 1 = Real.sqrt 96 * 4⁻¹ * (Real.cos (1 / 2) ^ 2 * Real.sin (1 / 2) ^ 2) ∧
    dEntry 2 (-2) 1 1 = 2 * (Real.cos (1 / 2) * Real.sin (1 / 2) ^ 3) ∧
    dEntry 2 (-2) 2 1 = Real.sin (1 / 2) ^ 4 := by
  obtain ⟨hs1, hs2, hc1, hc2⟩ := sc_half
  have hsne : Real.sin ((1 : ℝ) / 2) ≠ 0 := ne_of_gt (by linarith)
  have hcne : Real.cos ((1 : ℝ) / 2) ≠ 0 := ne_of_gt (by linarith)
  refine ⟨?_, ?_, ?_, ?_, ?_⟩
  · unfold dEntry
    rw [if_neg hsne, if_neg hcne,
      show (2 : ℤ).toNat = 2 from by decide, show ((2 : ℤ) + -2).toNat = 0 from by decide]
    unfold wd
    rw [wd_200, wdKfac_200]
    ring
  · unfold dEntry
    rw [if_neg hsne, if_neg hcne,
      show (2 : ℤ).toNat = 2 from by decide, show ((2 : ℤ) + -2).toNat = 0 from by decide,
      show ((2 : ℤ) + -1).toNat = 1 from by decide]
    unfold wd
    rw [wd_201, wdKfac_201]
    ring
  · unfold dEntry
    rw [if_neg hsne, if_neg hcne,
      show (2 : ℤ).toNat = 2 from by decide, show ((2 : ℤ) + -2).toNat = 0 from by decide,
      show ((2 : ℤ) + 0).toNat = 2 from by decide]
    unfold wd
    rw [wd_202, wdKfac_202]
    ring
  · unfold dEntry
    rw [if_neg hsne, if_neg hcne,
      show (2 : ℤ).toNat = 2 from by decide, show ((2 : ℤ) + -2).toNat = 0 from by decide,
      show ((2 : ℤ) + 1).toNat = 3 from by decide]
    unfold wd
    rw [wd_203, wdKfac_203]
    ring
  · unfold dEntry
    rw [if_neg hsne, if_neg hcne,
      show (2 : ℤ).toNat = 2 from by decide, show ((2 : ℤ) + -2).toNat = 0 from by decide,
      show ((2 : ℤ) + 2).toNat = 4 from by decide]
    unfold wd
    rw [wd_204, wdKfac_204]
    ring

set_option maxHeartbeats 1000000 in
/-- Numeric bounds for the five row entries at β = 1. -/
lemma C1_bounds :
    |Real.cos (1 / 2) ^ 4 - 0.593133| < 1e-4 ∧
    |2 * (Real.cos (1 / 2) ^ 3 * Real.sin (1 / 2)) - 0.64806| < 1e-4 ∧
    |Real.sqrt 96 * 4⁻¹ * (Real.cos (1 / 2) ^ 2 * Real.sin (1 / 2) ^ 2) - 0.433605| < 1e-4 ∧
    |2 * (Real.cos (1 / 2) * Real.sin (1 / 2) ^ 3) - 0.193411| < 1e-4 ∧
    |Real.sin (1 / 2) ^ 4 - 0.0528305| < 1e-4 := by
  obtain ⟨hs1, hs2, hc1, hc2⟩ := sc_half
  have hc0 : (0 : ℝ) ≤ Real.cos (1 / 2) := by linarith
  have hs0 : (0 : ℝ) ≤ Real.sin (1 / 2) := by linarith
  have hcc : (0.7701443 : ℝ) ≤ Real.cos (1 / 2) ^ 2 ∧ Real.cos (1 / 2) ^ 2 ≤ 0.7701578 :=
    ⟨by nlinarith, by nlinarith⟩
  have hc3 : (0.6758622 : ℝ) ≤ Real.cos (1 / 2) ^ 3 ∧ Real.cos (1 / 2) ^ 3 ≤ 0.67588 :=
    ⟨by nlinarith [hcc.1, hcc.2], by nlinarith [hcc.1, hcc.2]⟩
  have hc4 : (0.5931222 : ℝ) ≤ Real.cos (1 / 2) ^ 4 ∧ Real.cos (1 / 2) ^ 4 ≤ 0.5931431 :=
    ⟨by nlinarith [hcc.1, hcc.2], by nlinarith [hcc.1, hcc.2]⟩
  have hss : (0.2298413 : ℝ) ≤ Real.sin (1 / 2) ^ 2 ∧ Real.sin (1 / 2) ^ 2 ≤ 0.2298565 :=
    ⟨by nlinarith, by nlinarith⟩
  have hs3 : (0.1101899 : ℝ) ≤ Real.sin (1 / 2) ^ 3 ∧ Real.sin (1 / 2) ^ 3 ≤ 0.110201 :=
    ⟨by nlinarith [hss.1, hss.2], by nlinarith [hss.1, hss.2]⟩
  have hs4 : (0.052827 : ℝ) ≤ Real.sin (1 / 2) ^ 4 ∧ Real.sin (1 / 2) ^ 4 ≤ 0.0528341 :=
    ⟨by nlinarith [hss.1, hss.2], by nlinarith [hss.1, hss.2]⟩
  have h96 : (9.7979588 : ℝ) ≤ Real.sqrt 96 ∧ Real.sqrt 96 ≤ 9.7979592 := by
    have hq := Real.sq_sqrt (show (0 : ℝ) ≤ 96 from by norm_num)
    have hqn := Real.sqrt_nonneg (96 : ℝ)
    exact ⟨by nlinarith, by nlinarith⟩
  have hcs : (0.1770109 : ℝ) ≤ Real.cos (1 / 2) ^ 2 * Real.sin (1 / 2) ^ 2 ∧
      Real.cos (1 / 2) ^ 2 * Real.sin (1 / 2) ^ 2 ≤ 0.1770258 :=
    ⟨by nlinarith [hcc.1, hcc.2, hss.1, hss.2],
      by nlinarith [hcc.1, hcc.2, hss.1, hss.2]⟩
  refine ⟨?_, ?_, ?_, ?_, ?_⟩
  · rw [abs_lt]
    constructor <;> nlinarith [hc4.1, hc4.2]
  · rw [abs_lt]
    constructor <;> nlinarith [hc3.1, hc3.2, hs1, hs2, hs0]
  · rw [abs_lt]
    constructor <;> nlinarith [h96.1, h96.2, hcs.1, hcs.2]
  · rw [abs_lt]
    constructor <;> nlinarith [hs3.1, hs3.2, hc1, hc2, hc0]
  · rw [abs_lt]
    constructor <;> nlinarith [hs4.1, hs4.2]

/-- C1: for the table built by `build(L_max = 2, β = 1.0)`, the five queries
`value(2, -2, n)` for `n = -2..2` return values within `1e-4` of
`[0.593133, 0.64806, 0.433605, 0.193411, 0.0528305]`. -/
theorem C1_concrete_values :
    ∃ t : dmatrix, build 2 1 = Except.ok t ∧
      (t.djmn 2 (-2) (-2) = Except.ok (t.table 2 (-2) (-2)) ∧
        |t.table 2 (-2) (-2) - 0.593133| < 1e-4) ∧
      (t.djmn 2 (-2) (-1) = Except.ok (t.table 2 (-2) (-1)) ∧
        |t.table 2 (-2) (-1) - 0.64806| < 1e-4) ∧
      (t.djmn 2 (-2) 0 = Except.ok (t.table 2 (-2) 0) ∧
        |t.table 2 (-2) 0 - 0.433605| < 1e-4) ∧
      (t.djmn 2 (-2) 1 = Except.ok (t.table 2 (-2) 1) ∧
        |t.table 2 (-2) 1 - 0.193411| < 1e-4) ∧
      (t.djmn 2 (-2) 2 = Except.ok (t.table 2 (-2) 2) ∧
        |t.table 2 (-2) 2 - 0.0528305| < 1e-4) := by
  obtain ⟨e1, e2, e3, e4, e5⟩ := dEntry_C1_raw
  obtain ⟨b1, b2, b3, b4, b5⟩ := C1_bounds
  refine ⟨dmatrixOf (2 : ℤ).toNat 1, build_ok (by norm_num) 1, ?_, ?_, ?_, ?_, ?_⟩
  · exact ⟨djmn_ok _ (by simp only [dmatrixOf_max_L]; omega) (by norm_num) (by norm_num),
      by rw [dmatrixOf_table, e1]; exact b1⟩
  · exact ⟨djmn_ok _ (by simp only [dmatrixOf_max_L]; omega) (by norm_num) (by norm_num),
      by rw [dmatrixOf_table, e2]; exact b2⟩
  · exact ⟨djmn_ok _ (by simp only [dmatrixOf_max_L]; omega) (by norm_num) (by norm_num),
      by rw [dmatrixOf_table, e3]; exact b3⟩
  · exact ⟨djmn_ok _ (by simp only [dmatrixOf_max_L]; omega) (by norm_num) (by norm_num),
      by rw [dmatrixOf_table, e4]; exact b4⟩
  · exact ⟨djmn_ok _ (by simp only [dmatrixOf_max_L]; omega) (by norm_num) (by norm_num),
      by rw [dmatrixOf_table, e5]; exact b5⟩

/-- C3 witness at a concrete instance. -/
theorem C3_closed_forms_witness :
    (2 : ℤ) ≤ 20 ∧
      (∃ t : dmatrix, build 20 3 = Except.ok t ∧
        t.djmn 2 2 1 = Except.ok (t.table 2 2 1) ∧
        |t.table 2 2 1 - (-(1 + Real.cos 3) * Real.sin 3 / 2)| < 1e-4) ∧
      (∃ t : dmatrix, build 20 (Real.pi / 2) = Except.ok t ∧
        t.djmn 2 2 0 = Except.ok (t.table 2 2 0) ∧
        |t.table 2 2 0 - Real.sqrt 6 / 4| < 1e-4) :=
  ⟨by norm_num, C3_closed_forms.1 3 20 (by norm_num), C3_closed_forms.2 20 (by norm_num)⟩

end Scitbx
